import Mathlib

/-!
A shallow embedding in Lean 4 of the core of the `streaming_parser`
repository: the fixed-capacity ring buffer (`src/ring_buffer.cc`,
`src/ring_buffer.h`) and the header/body streaming parser
(`src/streaming_parser.h`).

Modelling conventions:
* machine bytes (`uint8_t`) are modelled as `Nat`; `uint32_t` values are
  modelled as `Nat` with an explicit `% 2 ^ 32` wherever the source's
  32-bit arithmetic can wrap: in `write`, the overflow check
  `buffered_bytes() + length > capacity()` and the subsequent stores
  into `write_index_` and `buffered_bytes_` are all computed in
  `uint32_t`; the remaining operations only form sums bounded by the
  capacity (at most `2 ^ 31`, see the invariant `Inv`) and cannot wrap;
* `buffered_bytes_` is an `int32_t` in the source, but every mutation
  subtracts exactly `min requested buffered`, which never drives it
  negative, so `Nat` models it exactly;
* the backing vector `buffer_` (fixed length, index-addressed bytes) is
  modelled as a function `Nat → Nat` together with its length `size`;
  `memcpy(&buffer_[pos], src, n)` becomes the pointwise range overwrite
  `memcpyFun`, and `memcpy(dst, &buffer_[pos], n)` becomes the slice
  extraction `bufSlice`;
* a possibly-null `uint8_t* data` pointer together with its `length` is
  modelled as `Option (List Nat)`: `none` is a null pointer, `some d`
  a valid pointer to the bytes `d` with `length = d.length`;
* a C++ destination pointer that only receives bytes is modelled by a
  `Bool` validity flag plus the returned byte list;
* C `assert`s compile to no-ops in release (`NDEBUG`) builds; the
  embedding models the release semantics and the theorems note where an
  assertion's condition is violated;
* callbacks (`std::function`) are modelled as pure Lean functions; each
  invocation that the code performs is recorded in the result so that
  theorems can speak about the sequence of handler calls.
-/

/-- memcpy into the backing store: overwrite positions
`pos, …, pos + src.length - 1` with the bytes of `src`, leaving every
other position unchanged (models `std::memcpy(&buffer_[pos], src, n)`
with `n = src.length`). -/
def memcpyFun (dst : Nat → Nat) (pos : Nat) (src : List Nat) : Nat → Nat :=
  fun i => if pos ≤ i ∧ i < pos + src.length then src.getD (i - pos) 0 else dst i

/-- memcpy out of the backing store: the bytes at positions
`start, …, start + len - 1` (models `std::memcpy(dst, &buffer_[start], len)`). -/
def bufSlice (buffer : Nat → Nat) (start len : Nat) : List Nat :=
  (List.range len).map fun i => buffer (start + i)

/-- The contiguous extraction both `read` overloads perform: bytes
`buffer[temp..temp+m)` when the range does not wrap past `cap`, and the
two-`memcpy` reassembly `buffer[temp..cap) ++ buffer[0..m-(cap-temp))`
when it does. -/
def ringSegment (buffer : Nat → Nat) (cap temp m : Nat) : List Nat :=
  if temp + m > cap then
    bufSlice buffer temp (cap - temp) ++ bufSlice buffer 0 (m - (cap - temp))
  else
    bufSlice buffer temp m

/-- Result vocabulary of `RingBuffer::write` (`std::error_code` values:
success, `ErrBufferOverflow`, `ErrInvalidParameter`). -/
inductive WriteResult where
  | ok
  | bufferOverflow
  | invalidParameter
deriving DecidableEq

/-- State of the `RingBuffer` class (`src/ring_buffer.h`): backing
vector `buffer_` (as content function plus length `size`), the constant
`index_mask`, indices and byte count.  The mutex only serialises access
and has no sequential meaning. -/
structure RingBuffer where
  index_mask : Nat
  size : Nat
  buffer : Nat → Nat
  read_index : Nat
  write_index : Nat
  buffered_bytes : Nat

namespace RingBuffer

/-- `RingBuffer::RingBuffer(uint32_t size)`: mask `size - 1`, vector
resized to `size` (zero-filled), indices zero.  The constructor asserts
`size > 0` and that `size` is a power of two; theorems carry that
precondition in the invariant `Inv`. -/
def new (size : Nat) : RingBuffer :=
  { index_mask := size - 1
    size := size
    buffer := fun _ => 0
    read_index := 0
    write_index := 0
    buffered_bytes := 0 }

/-- `RingBuffer::capacity()`: the backing vector's size. -/
def capacity (rb : RingBuffer) : Nat := rb.size

/-- The copy phase of `RingBuffer::write`: one `memcpy` at
`temp_write_idx` when the destination range fits, otherwise the split
into a tail copy of `left = capacity - temp_write_idx` bytes and a head
copy of the remainder at index 0. -/
def writeBuf (buffer : Nat → Nat) (cap temp : Nat) (d : List Nat) : Nat → Nat :=
  if temp + d.length > cap then
    let left := cap - temp
    memcpyFun (memcpyFun buffer temp (d.take left)) 0 (d.drop left)
  else
    memcpyFun buffer temp d

/-- `RingBuffer::write(const uint8_t* data, uint32_t length)`.  The
overflow check computes `buffered_bytes() + length` in `uint32_t`, so
the sum wraps modulo `2 ^ 32`: for `length ≥ 2 ^ 32 - buffered_bytes`
the check is bypassed and the source proceeds into `memcpy` with the
oversize `length` — an out-of-bounds write (undefined behavior); the
model performs the nominal circular copy there.  The `uint32_t` stores
into `write_index_` and `buffered_bytes_` wrap the same way. -/
def write (rb : RingBuffer) (data : Option (List Nat)) : WriteResult × RingBuffer :=
  match data with
  | none => (.invalidParameter, rb)
  | some d =>
    if d.length = 0 then (.invalidParameter, rb)
    else if (rb.buffered_bytes + d.length) % 2 ^ 32 > rb.capacity then (.bufferOverflow, rb)
    else
      let temp := rb.write_index &&& rb.index_mask
      (.ok, { rb with
              buffer := writeBuf rb.buffer rb.capacity temp d
              write_index := (temp + d.length) % 2 ^ 32
              buffered_bytes := (rb.buffered_bytes + d.length) % 2 ^ 32 })

/-- `RingBuffer::read(uint8_t* data, uint32_t length)` — copying read.
`dstValid = false` models a null destination pointer.  The returned list
holds the bytes copied out (the C++ return value is its length). -/
def read (rb : RingBuffer) (dstValid : Bool) (length : Nat) : List Nat × RingBuffer :=
  if dstValid = false ∨ length = 0 then ([], rb)
  else if rb.buffered_bytes = 0 then ([], rb)
  else
    let temp := rb.read_index &&& rb.index_mask
    let read_bytes := min length rb.buffered_bytes
    (ringSegment rb.buffer rb.capacity temp read_bytes,
     { rb with
       read_index := temp + read_bytes
       buffered_bytes := rb.buffered_bytes - read_bytes })

/-- `RingBuffer::read(uint32_t length, ReceiveCallback&& recv_cb)` —
zero-copy read.  Returns the C++ return value, the callback invocation
performed (arguments passed, `none` when the callback was never called),
and the final state.  The read is committed only when the callback
returns true. -/
def readCb (rb : RingBuffer) (length : Nat) (cb : List Nat → Nat → Bool) :
    Nat × Option (List Nat × Nat) × RingBuffer :=
  if length = 0 then (0, none, rb)
  else if rb.buffered_bytes = 0 then (0, none, rb)
  else
    let temp := rb.read_index &&& rb.index_mask
    let read_bytes := min length rb.buffered_bytes
    let view := ringSegment rb.buffer rb.capacity temp read_bytes
    let read_ok := cb view read_bytes
    if read_ok then
      (read_bytes, some (view, read_bytes),
       { rb with
         read_index := temp + read_bytes
         buffered_bytes := rb.buffered_bytes - read_bytes })
    else
      (0, some (view, read_bytes), rb)

/-- `RingBuffer::drain(uint32_t length)`. -/
def drain (rb : RingBuffer) (length : Nat) : RingBuffer :=
  let temp := rb.read_index &&& rb.index_mask
  let read_bytes := min length rb.buffered_bytes
  { rb with
    read_index := (temp + read_bytes) &&& rb.index_mask
    buffered_bytes := rb.buffered_bytes - read_bytes }

/-- `RingBuffer::clear()`. -/
def clear (rb : RingBuffer) : RingBuffer :=
  { rb with read_index := 0, write_index := 0, buffered_bytes := 0 }

/-- `RingBuffer::empty()`. -/
def isEmpty (rb : RingBuffer) : Bool := rb.buffered_bytes = 0

/-- `RingBuffer::full()`. -/
def isFull (rb : RingBuffer) : Bool := rb.buffered_bytes = rb.size

/-- The class invariant established by the constructor (whose asserts
require a positive power-of-two size, and whose `uint32_t` parameter
therefore bounds it by `2 ^ 31`) and preserved by every operation: the
mask matches the capacity, the byte count fits, and the write index
sits `buffered_bytes` positions past the read index modulo capacity. -/
def Inv (rb : RingBuffer) : Prop :=
  (∃ k, k ≤ 31 ∧ rb.size = 2 ^ k) ∧
  rb.index_mask = rb.size - 1 ∧
  rb.buffered_bytes ≤ rb.size ∧
  rb.write_index % rb.size = (rb.read_index + rb.buffered_bytes) % rb.size

/-- The buffered bytes in FIFO order, as the abstraction of the ring:
byte `i` of the queue lives at physical index
`(read_index + i) % capacity`. -/
def contents (rb : RingBuffer) : List Nat :=
  (List.range rb.buffered_bytes).map fun i => rb.buffer ((rb.read_index + i) % rb.size)

end RingBuffer

/-- One ring-buffer operation of the sequences considered in the
accounting property: a `write` of a byte list, a copying `read` of a
requested length (into a valid destination), or a `drain`. -/
inductive BufOp where
  | write (data : List Nat)
  | read (len : Nat)
  | drain (len : Nat)

/-- Apply one operation; besides the new state, report the accepted
write length (`length` if the write succeeded, else 0) and the number of
bytes actually read or drained (`min requested buffered`, the amount the
source computes as `read_bytes`). -/
def applyOp (rb : RingBuffer) : BufOp → RingBuffer × Nat × Nat
  | .write d =>
    let (res, rb') := rb.write (some d)
    (rb', if res = .ok then d.length else 0, 0)
  | .read l => ((rb.read true l).2, 0, min l rb.buffered_bytes)
  | .drain l => (rb.drain l, 0, min l rb.buffered_bytes)

/-- Apply a sequence of operations, summing the accepted write lengths
and the byte counts actually read or drained. -/
def runOps (rb : RingBuffer) : List BufOp → RingBuffer × Nat × Nat
  | [] => (rb, 0, 0)
  | op :: ops =>
    let (rb', w, r) := applyOp rb op
    let (rb'', ws, rs) := runOps rb' ops
    (rb'', w + ws, r + rs)

/-- "Each write's length is at most the free space
(`capacity - buffered_bytes`) at the time of that write." -/
def fitsRun (rb : RingBuffer) : List BufOp → Bool
  | [] => true
  | op :: ops =>
    (match op with
     | .write d => decide (d.length ≤ rb.capacity - rb.buffered_bytes)
     | _ => true) && fitsRun (applyOp rb op).1 ops

/-- Write a byte sequence split into successive `write` calls. -/
def writeAll (rb : RingBuffer) : List (List Nat) → RingBuffer
  | [] => rb
  | d :: ds => writeAll (rb.write (some d)).2 ds

/-- Read successive requested lengths by copying `read` calls,
concatenating the bytes produced. -/
def readAll (rb : RingBuffer) : List Nat → List Nat × RingBuffer
  | [] => ([], rb)
  | l :: ls =>
    let (out, rb') := rb.read true l
    let (outs, rb'') := readAll rb' ls
    (out ++ outs, rb'')

/-- `StreamingParser::RecvState`. -/
inductive RecvState where
  | READ_HEADER
  | READ_BODY
deriving DecidableEq

/-- The compile-time shape of the template parameter `ProtoHeader`:
its size (`protocol_header_length = sizeof(ProtoHeader)`), the byte
offset and width of its `body_length` field.  The `static_assert`
requires the field to be `uint16_t` or `uint32_t` (width 2 or 4), and a
field inside the struct gives `off + width ≤ size` and `0 < size`. -/
structure HeaderShape where
  protocol_header_length : Nat
  off : Nat
  width : Nat
  hsize_pos : 0 < protocol_header_length
  field_fits : off + width ≤ protocol_header_length
  width_valid : width = 2 ∨ width = 4

/-- The value-level view of a `ProtoHeader` instance: the raw bytes that
were copied into it, and the value of its `body_length` field. -/
structure HeaderRec where
  raw : List Nat
  body_length : Nat
deriving DecidableEq

/-- Big-endian interpretation of a byte list. -/
def beDecode (bs : List Nat) : Nat := bs.foldl (fun a b => a * 256 + b) 0

/-- The combined effect of `recv_buffer_.read((uint8_t*)&current_header_, protocol_header_length)`
followed by `DoBytesOrderConversion`: the struct holds the wire bytes,
and its `body_length` field — converted by `ntohs` (16-bit) or `ntohl`
(32-bit) from network to host order — holds, on any host, the big-endian
interpretation of the field's wire bytes. -/
def decodeHeader (hs : HeaderShape) (bytes : List Nat) : HeaderRec :=
  { raw := bytes, body_length := beDecode ((bytes.drop hs.off).take hs.width) }

/-- One handler invocation performed by the parser: either
`header_handler_(current_header_)` or `body_handler_(data, length)`. -/
inductive Event where
  | header (h : HeaderRec)
  | body (data : List Nat) (length : Nat)
deriving DecidableEq

/-- State of `StreamingParser<ProtoHeader>`: `recv_state_`,
`current_header_`, `recv_buffer_`.  The two handlers are immutable after
construction and are passed to the operations as explicit arguments.
`current_header_` is default-constructed (indeterminate in C++, never
consulted before the first header is parsed); the model initialises it
to zeros. -/
structure Parser where
  recv_state : RecvState
  current_header : HeaderRec
  recv_buffer : RingBuffer

/-- The parser's initial state: `recv_state_ = READ_HEADER` and a
default-constructed `recv_buffer_`, i.e. `RingBuffer()` delegating to
`RingBuffer(2048)`. -/
def Parser.init : Parser :=
  { recv_state := .READ_HEADER
    current_header := { raw := [], body_length := 0 }
    recv_buffer := RingBuffer.new 2048 }

/-- `StreamingParser::PerformStreamingParse()`.  Returns the C++ return
value, the handler invocations performed, and the new parser state.
In `READ_BODY` the source `assert(current_header_.body_length > 0)` is a
release no-op, and the result of `recv_buffer_.read(length, callback)`
is discarded: the state moves to `READ_HEADER` and `body_length` is
reset even when the body handler returned false. -/
def performStreamingParse (hs : HeaderShape) (hh : HeaderRec → Bool)
    (bh : List Nat → Nat → Bool) (p : Parser) : Bool × List Event × Parser :=
  match p.recv_state with
  | .READ_HEADER =>
    if hs.protocol_header_length ≤ p.recv_buffer.buffered_bytes then
      let (bytes, rb) := p.recv_buffer.read true hs.protocol_header_length
      let hdr := decodeHeader hs bytes
      let _ := hh hdr
      (false, [Event.header hdr],
       { recv_state := .READ_BODY, current_header := hdr, recv_buffer := rb })
    else
      (true, [], p)
  | .READ_BODY =>
    if p.current_header.body_length ≤ p.recv_buffer.buffered_bytes then
      let (_, called, rb) := p.recv_buffer.readCb p.current_header.body_length bh
      (false,
       (match called with
        | some (v, n) => [Event.body v n]
        | none => []),
       { recv_state := .READ_HEADER,
         current_header := { p.current_header with body_length := 0 },
         recv_buffer := rb })
    else
      (true, [], p)

/-- The guard of the `while` loop in `StreamingParser::HandleData`. -/
def loopCond (hs : HeaderShape) (p : Parser) : Prop :=
  (p.recv_state = .READ_HEADER ∧ hs.protocol_header_length ≤ p.recv_buffer.buffered_bytes) ∨
  (p.recv_state = .READ_BODY ∧ p.current_header.body_length ≤ p.recv_buffer.buffered_bytes)

instance (hs : HeaderShape) (p : Parser) : Decidable (loopCond hs p) := by
  unfold loopCond; infer_instance

/-- Termination rank of a parser state (a `READ_BODY` step that consumes
nothing still returns to `READ_HEADER`). -/
def stateRank : RecvState → Nat
  | .READ_HEADER => 0
  | .READ_BODY => 1

/-- The `while` loop of `StreamingParser::HandleData`: while the guard
holds, run `PerformStreamingParse()`, breaking when it reports "waiting
for more bytes".  Accumulates the handler invocations performed. -/
def parseLoop (hs : HeaderShape) (hh : HeaderRec → Bool) (bh : List Nat → Nat → Bool)
    (p : Parser) : List Event × Parser :=
  if hc : loopCond hs p then
    let r := performStreamingParse hs hh bh p
    if hr : r.1 = true then
      (r.2.1, r.2.2)
    else
      let rest := parseLoop hs hh bh r.2.2
      (r.2.1 ++ rest.1, rest.2)
  else
    ([], p)
termination_by 2 * p.recv_buffer.buffered_bytes + stateRank p.recv_state
decreasing_by
  rcases p with ⟨st, hdr, rb⟩
  rcases st with - | -
  · -- READ_HEADER: the guard gives `protocol_header_length ≤ buffered`,
    -- and the header read removes exactly that many bytes.
    have hle : hs.protocol_header_length ≤ rb.buffered_bytes := by
      rcases hc with ⟨-, h⟩ | ⟨h, -⟩
      · exact h
      · simp at h
    have hpos := hs.hsize_pos
    have h1 : ¬ (true = false ∨ hs.protocol_header_length = 0) := by
      simp
      omega
    have h2 : ¬ rb.buffered_bytes = 0 := by omega
    dsimp only [performStreamingParse]
    rw [if_pos hle]
    dsimp only [stateRank]
    rw [RingBuffer.read, if_neg h1, if_neg h2]
    dsimp only
    omega
  · -- READ_BODY: the zero-copy read never increases the byte count and
    -- the state returns to READ_HEADER.
    have hle : hdr.body_length ≤ rb.buffered_bytes := by
      rcases hc with ⟨h, -⟩ | ⟨-, h⟩
      · simp at h
      · exact h
    dsimp only [performStreamingParse]
    rw [if_pos hle]
    dsimp only [stateRank]
    have hble : (rb.readCb hdr.body_length bh).2.2.buffered_bytes ≤ rb.buffered_bytes := by
      rw [RingBuffer.readCb]
      split
      · exact Nat.le_refl _
      · split
        · exact Nat.le_refl _
        · dsimp only
          split
          · dsimp only
            omega
          · exact Nat.le_refl _
    exact Nat.lt_succ_of_le (by simpa using Nat.mul_le_mul_left 2 hble)

/-- `StreamingParser::HandleData(const uint8_t* data, uint32_t length)`:
append the chunk to `recv_buffer_`, fail only on `ErrBufferOverflow`,
otherwise run the parse loop and report success. -/
def handleData (hs : HeaderShape) (hh : HeaderRec → Bool) (bh : List Nat → Nat → Bool)
    (p : Parser) (chunk : Option (List Nat)) : Bool × List Event × Parser :=
  let (err, rb) := p.recv_buffer.write chunk
  if err = .bufferOverflow then
    (false, [], { p with recv_buffer := rb })
  else
    let r := parseLoop hs hh bh { p with recv_buffer := rb }
    (true, r.1, r.2)

/-- Deliver a sequence of chunks through successive `HandleData` calls,
collecting all results and all handler invocations in order. -/
def runChunks (hs : HeaderShape) (hh : HeaderRec → Bool) (bh : List Nat → Nat → Bool)
    (p : Parser) : List (List Nat) → Bool × List Event × Parser
  | [] => (true, [], p)
  | c :: cs =>
    let (ok, evs, p') := handleData hs hh bh p (some c)
    let (oks, evss, p'') := runChunks hs hh bh p' cs
    (ok && oks, evs ++ evss, p'')

/-- A concrete header shape used by the concrete-run theorems: 4 bytes,
with a 16-bit `body_length` field at offset 0 (as in
`DoBytesOrderConversion`, its value is the big-endian reading of those
two bytes). -/
def hsDemo : HeaderShape :=
  { protocol_header_length := 4
    off := 0
    width := 2
    hsize_pos := by decide
    field_fits := by decide
    width_valid := Or.inl rfl }

/-- Handlers used by the concrete-run theorems. -/
def hhTrue : HeaderRec → Bool := fun _ => true

/-- A body handler that always accepts. -/
def bhTrue : List Nat → Nat → Bool := fun _ _ => true

/-- A body handler that always rejects (returns false). -/
def bhFalse : List Nat → Nat → Bool := fun _ _ => false

/-- A ring-buffer state holding the single byte 9 (capacity 2048), used
by the concrete-run theorems: one byte of a two-byte body has arrived. -/
def rbOne9 : RingBuffer :=
  { index_mask := 2047
    size := 2048
    buffer := fun i => if i = 0 then 9 else 0
    read_index := 0
    write_index := 1
    buffered_bytes := 1 }

/-- Parser configuration reached after `t` bytes of the header+body
message `hdr ++ body` have been delivered (in any chunking) to a parser
that started fresh: still collecting the header, collecting the body
with the decoded header recorded, or back at `READ_HEADER` with the
whole frame consumed. -/
def MidState (hs : HeaderShape) (hdr body : List Nat) (t : Nat) (p : Parser) : Prop :=
  p.recv_buffer.Inv ∧ p.recv_buffer.size = 2048 ∧
  ((t < hdr.length ∧ p.recv_state = .READ_HEADER ∧
      p.recv_buffer.contents = (hdr ++ body).take t) ∨
   (hdr.length ≤ t ∧ t < hdr.length + body.length ∧ p.recv_state = .READ_BODY ∧
      p.current_header = decodeHeader hs hdr ∧
      p.recv_buffer.contents = body.take (t - hdr.length)) ∨
   (t = hdr.length + body.length ∧ p.recv_state = .READ_HEADER ∧
      p.recv_buffer.contents = []))

/-- The handler invocations the parser performs while the number of
delivered bytes of the message `hdr ++ body` grows from `t` to `t'`:
the header handler fires when delivery crosses the header boundary, the
body handler when it reaches the end of the frame. -/
def eventsBetween (hs : HeaderShape) (hdr body : List Nat) (t t' : Nat) : List Event :=
  (if t < hdr.length ∧ hdr.length ≤ t' then [Event.header (decodeHeader hs hdr)] else []) ++
  (if t < hdr.length + body.length ∧ hdr.length + body.length ≤ t' then
    [Event.body body body.length] else [])

namespace RingBuffer

theorem Inv.size_pos {rb : RingBuffer} (h : rb.Inv) : 0 < rb.size := by
  obtain ⟨⟨k, -, hk⟩, -, -, -⟩ := h
  rw [hk]
  exact Nat.pos_pow_of_pos k (by omega)

theorem Inv.size_le {rb : RingBuffer} (h : rb.Inv) : rb.size ≤ 2 ^ 31 := by
  obtain ⟨⟨k, hk31, hk⟩, -, -, -⟩ := h
  rw [hk]
  exact Nat.pow_le_pow_right (by omega) hk31

theorem Inv.mask_eq {rb : RingBuffer} (h : rb.Inv) (x : Nat) :
    x &&& rb.index_mask = x % rb.size := by
  obtain ⟨⟨k, -, hk⟩, hm, -, -⟩ := h
  rw [hm, hk, Nat.and_pow_two_sub_one_eq_mod]

theorem new_Inv (k : Nat) (hk : k ≤ 31) : (new (2 ^ k)).Inv :=
  ⟨⟨k, hk, rfl⟩, rfl, Nat.zero_le _, rfl⟩

end RingBuffer

theorem length_bufSlice (buffer : Nat → Nat) (start len : Nat) :
    (bufSlice buffer start len).length = len := by
  simp [bufSlice]

theorem getElem_bufSlice (buffer : Nat → Nat) (start len i : Nat)
    (h : i < (bufSlice buffer start len).length) :
    (bufSlice buffer start len)[i] = buffer (start + i) := by
  simp [bufSlice]

/-- The two-`memcpy` extraction equals the circular slice: byte `i` of the
segment starting at `temp = r % cap` is `buffer ((r + i) % cap)`. -/
theorem ringSegment_eq (buffer : Nat → Nat) (cap r m : Nat)
    (hcap : 0 < cap) (hm : m ≤ cap) :
    ringSegment buffer cap (r % cap) m =
      (List.range m).map fun i => buffer ((r + i) % cap) := by
  have htemp : r % cap < cap := Nat.mod_lt _ hcap
  set temp := r % cap with htempdef
  have hshift : ∀ i : Nat, (r + i) % cap = (temp + i) % cap := by
    intro i
    rw [htempdef, Nat.mod_add_mod]
  unfold ringSegment
  split
  · -- wraparound: temp + m > cap
    rename_i hwrap
    apply List.ext_getElem
    · simp [length_bufSlice]
      omega
    · intro i h1 h2
      have hil : i < m := by
        simpa using h2
      rw [List.getElem_map, List.getElem_range, hshift]
      rcases Nat.lt_or_ge i (cap - temp) with hi | hi
      · rw [List.getElem_append_left (by rw [length_bufSlice]; exact hi)]
        rw [getElem_bufSlice]
        have : (temp + i) % cap = temp + i := Nat.mod_eq_of_lt (by omega)
        rw [this]
      · rw [List.getElem_append_right (by rw [length_bufSlice]; exact hi)]
        rw [getElem_bufSlice, length_bufSlice]
        have : temp + i = cap + (i - (cap - temp)) := by omega
        rw [this, Nat.add_mod_left, Nat.mod_eq_of_lt (by omega), Nat.zero_add]
  · -- no wraparound: temp + m ≤ cap
    rename_i hnw
    push_neg at hnw
    apply List.ext_getElem
    · simp [length_bufSlice]
    · intro i h1 h2
      have hil : i < m := by
        simpa using h2
      rw [List.getElem_map, List.getElem_range, hshift, getElem_bufSlice]
      have : (temp + i) % cap = temp + i := Nat.mod_eq_of_lt (by omega)
      rw [this]

namespace RingBuffer

theorem memcpyFun_apply (dst : Nat → Nat) (pos : Nat) (src : List Nat) (i : Nat) :
    memcpyFun dst pos src i =
      if pos ≤ i ∧ i < pos + src.length then src.getD (i - pos) 0 else dst i := rfl

theorem writeBuf_eq (buffer : Nat → Nat) (cap temp : Nat) (d : List Nat) :
    writeBuf buffer cap temp d =
      if temp + d.length > cap then
        memcpyFun (memcpyFun buffer temp (d.take (cap - temp))) 0 (d.drop (cap - temp))
      else
        memcpyFun buffer temp d := rfl

theorem writeBuf_get_inside (buffer : Nat → Nat) (cap temp : Nat) (d : List Nat)
    (htemp : temp < cap) (hd : d.length ≤ cap) (j : Nat) (hj : j < d.length) :
    writeBuf buffer cap temp d ((temp + j) % cap) = d.getD j 0 := by
  rw [writeBuf_eq]
  split
  · rename_i hwrap
    have hleft : cap - temp < d.length := by omega
    rcases Nat.lt_or_ge j (cap - temp) with hjl | hjl
    · have hpos : (temp + j) % cap = temp + j := Nat.mod_eq_of_lt (by omega)
      rw [hpos, memcpyFun_apply]
      rw [if_neg (by simp only [List.length_drop]; omega)]
      rw [memcpyFun_apply]
      rw [if_pos (by simp only [List.length_take]; omega)]
      have h1 : temp + j - temp = j := by omega
      rw [h1]
      rw [List.getD_eq_getElem _ _ (by simp only [List.length_take]; omega),
          List.getElem_take, List.getD_eq_getElem _ _ hj]
    · have hpos : (temp + j) % cap = j - (cap - temp) := by
        have h1 : temp + j = cap + (j - (cap - temp)) := by omega
        rw [h1, Nat.add_mod_left, Nat.mod_eq_of_lt (by omega)]
      rw [hpos, memcpyFun_apply]
      rw [if_pos (by simp only [List.length_drop]; omega)]
      have h1 : j - (cap - temp) - 0 = j - (cap - temp) := by omega
      rw [h1]
      rw [List.getD_eq_getElem _ _ (by simp only [List.length_drop]; omega),
          List.getElem_drop, List.getD_eq_getElem _ _ hj]
      congr 1
      omega
  · rename_i hnw
    push_neg at hnw
    have hpos : (temp + j) % cap = temp + j := Nat.mod_eq_of_lt (by omega)
    rw [hpos, memcpyFun_apply]
    rw [if_pos (by omega)]
    have h1 : temp + j - temp = j := by omega
    rw [h1]

theorem writeBuf_get_outside (buffer : Nat → Nat) (cap temp : Nat) (d : List Nat)
    (htemp : temp < cap) (hd : d.length ≤ cap) (x : Nat) (hx : x < cap)
    (hout : ∀ j, j < d.length → x ≠ (temp + j) % cap) :
    writeBuf buffer cap temp d x = buffer x := by
  rw [writeBuf_eq]
  split
  · rename_i hwrap
    have hleft : cap - temp < d.length := by omega
    rw [memcpyFun_apply]
    rw [if_neg ?ho]
    case ho =>
      rintro ⟨-, h2⟩
      simp only [List.length_drop, Nat.zero_add] at h2
      refine hout (x + (cap - temp)) (by omega) ?_
      have h1 : temp + (x + (cap - temp)) = cap + x := by omega
      rw [h1, Nat.add_mod_left, Nat.mod_eq_of_lt hx]
    rw [memcpyFun_apply]
    rw [if_neg ?hi]
    case hi =>
      rintro ⟨h1, h2⟩
      simp only [List.length_take] at h2
      refine hout (x - temp) (by omega) ?_
      have h3 : temp + (x - temp) = x := by omega
      rw [h3, Nat.mod_eq_of_lt hx]
  · rename_i hnw
    push_neg at hnw
    rw [memcpyFun_apply]
    rw [if_neg ?hn]
    case hn =>
      rintro ⟨h1, h2⟩
      refine hout (x - temp) (by omega) ?_
      have h3 : temp + (x - temp) = x := by omega
      rw [h3, Nat.mod_eq_of_lt hx]

theorem mod_shift_ne (cap r i j : Nat) (hi : i < cap) (hj : j < cap) (hne : i ≠ j) :
    (r + i) % cap ≠ (r + j) % cap := by
  intro h
  have h1 : i ≡ j [MOD cap] := Nat.ModEq.add_left_cancel' r h
  have h2 : i % cap = j % cap := h1
  rw [Nat.mod_eq_of_lt hi, Nat.mod_eq_of_lt hj] at h2
  exact hne h2

end RingBuffer

namespace RingBuffer

theorem write_some_eq (rb : RingBuffer) (d : List Nat) :
    rb.write (some d) =
      (if d.length = 0 then (.invalidParameter, rb)
       else if (rb.buffered_bytes + d.length) % 2 ^ 32 > rb.capacity then
         (.bufferOverflow, rb)
       else
         (.ok, { rb with
                 buffer := writeBuf rb.buffer rb.capacity (rb.write_index &&& rb.index_mask) d
                 write_index := ((rb.write_index &&& rb.index_mask) + d.length) % 2 ^ 32
                 buffered_bytes := (rb.buffered_bytes + d.length) % 2 ^ 32 })) := rfl

theorem write_ok_spec (rb : RingBuffer) (d : List Nat) (hInv : rb.Inv)
    (hne : d.length ≠ 0) (hfit : rb.buffered_bytes + d.length ≤ rb.capacity) :
    (rb.write (some d)).1 = WriteResult.ok ∧
    ((rb.write (some d)).2).Inv ∧
    (rb.write (some d)).2.contents = rb.contents ++ d ∧
    (rb.write (some d)).2.buffered_bytes = rb.buffered_bytes + d.length ∧
    (rb.write (some d)).2.size = rb.size ∧
    (rb.write (some d)).2.read_index = rb.read_index := by
  have hsz : 0 < rb.size := hInv.size_pos
  have hsle : rb.size ≤ 2 ^ 31 := hInv.size_le
  have hmask := hInv.mask_eq rb.write_index
  obtain ⟨hpow, hmaskeq, hble, hidx⟩ := hInv
  have hnov : ¬ ((rb.buffered_bytes + d.length) % 2 ^ 32 > rb.capacity) := by
    unfold capacity at hfit ⊢
    rw [Nat.mod_eq_of_lt (by omega)]
    omega
  rw [write_some_eq, if_neg hne, if_neg hnov, hmask]
  simp only [capacity]
  have htemp : rb.write_index % rb.size < rb.size := Nat.mod_lt _ hsz
  have hdcap : d.length ≤ rb.size := by
    unfold capacity at hfit
    omega
  have hid1 : (rb.buffered_bytes + d.length) % 2 ^ 32 = rb.buffered_bytes + d.length :=
    Nat.mod_eq_of_lt (by unfold capacity at hfit; omega)
  have hid2 : (rb.write_index % rb.size + d.length) % 2 ^ 32 =
      rb.write_index % rb.size + d.length :=
    Nat.mod_eq_of_lt (by omega)
  rw [hid1, hid2]
  refine ⟨by trivial, ?_, ?_, by trivial, by trivial, by trivial⟩
  · -- invariant preservation
    refine ⟨hpow, hmaskeq, ?_, ?_⟩
    · unfold capacity at hfit
      dsimp only
      omega
    · dsimp only
      rw [hidx, Nat.mod_add_mod]
      congr 1
      omega
  · -- contents = old contents ++ d
    unfold contents
    dsimp only
    apply List.ext_getElem
    · simp
    · intro i h1 h2
      simp only [List.length_map, List.length_range] at h1
      rw [List.getElem_map, List.getElem_range]
      rcases Nat.lt_or_ge i rb.buffered_bytes with hib | hib
      · -- an old byte: the write does not touch its slot
        have hx : (rb.read_index + i) % rb.size < rb.size := Nat.mod_lt _ hsz
        rw [writeBuf_get_outside _ _ _ _ htemp hdcap _ hx ?hmiss]
        case hmiss =>
          intro j hjd
          rw [hidx, Nat.mod_add_mod]
          have h3 : rb.read_index + rb.buffered_bytes + j = rb.read_index + (rb.buffered_bytes + j) := by
            omega
          rw [h3]
          refine mod_shift_ne _ _ _ _ (by omega) ?_ (by omega)
          unfold capacity at hfit
          omega
        rw [List.getElem_append_left (by simpa using hib)]
        rw [List.getElem_map, List.getElem_range]
      · -- a new byte: slot `(read + i) % size` was just written with `d[i - buffered]`
        have h3 : rb.read_index + i = rb.read_index + rb.buffered_bytes + (i - rb.buffered_bytes) := by
          omega
        rw [h3]
        have h4 : (rb.read_index + rb.buffered_bytes + (i - rb.buffered_bytes)) % rb.size =
            (rb.write_index % rb.size + (i - rb.buffered_bytes)) % rb.size := by
          rw [hidx, Nat.mod_add_mod]
        rw [h4]
        rw [writeBuf_get_inside _ _ _ _ htemp hdcap _ (by omega)]
        rw [List.getElem_append_right (by simpa using hib)]
        rw [List.getD_eq_getElem _ _ (by omega)]
        congr 1
        simp

end RingBuffer

namespace RingBuffer

theorem length_contents (rb : RingBuffer) : rb.contents.length = rb.buffered_bytes := by
  simp [contents]

theorem read_true_spec (rb : RingBuffer) (l : Nat) (hInv : rb.Inv) :
    (rb.read true l).1 = rb.contents.take l ∧
    ((rb.read true l).2).Inv ∧
    (rb.read true l).2.contents = rb.contents.drop l ∧
    (rb.read true l).2.buffered_bytes = rb.buffered_bytes - min l rb.buffered_bytes ∧
    (rb.read true l).2.size = rb.size ∧
    (rb.read true l).2.buffer = rb.buffer := by
  have hsz : 0 < rb.size := hInv.size_pos
  have hmask := hInv.mask_eq rb.read_index
  obtain ⟨hpow, hmaskeq, hble, hidx⟩ := hInv
  rcases Nat.eq_zero_or_pos l with hl | hl
  · subst hl
    rw [read]
    rw [if_pos (by simp)]
    refine ⟨by simp, ⟨hpow, hmaskeq, hble, hidx⟩, by simp, by simp, rfl, rfl⟩
  rcases Nat.eq_zero_or_pos rb.buffered_bytes with hb | hb
  · rw [read]
    rw [if_neg (by simp; omega), if_pos hb]
    have hc : rb.contents = [] := by
      unfold contents
      rw [hb]
      simp
    refine ⟨by simp [hc], ⟨hpow, hmaskeq, hble, hidx⟩, by simp [hc], by dsimp only; omega, rfl, rfl⟩
  · rw [read]
    rw [if_neg (by simp; omega), if_neg (by omega)]
    dsimp only
    simp only [capacity]
    rw [hmask]
    have hm : min l rb.buffered_bytes ≤ rb.size := by omega
    rw [ringSegment_eq rb.buffer rb.size rb.read_index (min l rb.buffered_bytes) (by omega) hm]
    refine ⟨?_, ⟨hpow, hmaskeq, by dsimp only; omega, ?_⟩, ?_, by trivial, by trivial, by trivial⟩
    · -- bytes produced = contents.take l
      apply List.ext_getElem
      · simp [contents]
      · intro i h1 h2
        simp only [List.length_map, List.length_range] at h1
        rw [List.getElem_map, List.getElem_range, List.getElem_take]
        unfold contents
        rw [List.getElem_map, List.getElem_range]
    · -- invariant: write index still read' + buffered'
      dsimp only
      rw [hidx]
      have h1 : rb.read_index % rb.size + min l rb.buffered_bytes +
          (rb.buffered_bytes - min l rb.buffered_bytes) =
          rb.read_index % rb.size + rb.buffered_bytes := by
        omega
      rw [h1, Nat.mod_add_mod]
    · -- remaining contents = contents.drop l
      unfold contents
      dsimp only
      apply List.ext_getElem
      · simp
        omega
      · intro i h1 h2
        simp only [List.length_map, List.length_range] at h1
        rw [List.getElem_map, List.getElem_range, List.getElem_drop,
            List.getElem_map, List.getElem_range]
        congr 1
        rw [Nat.add_assoc, Nat.mod_add_mod]
        congr 1
        omega

end RingBuffer

namespace RingBuffer

theorem view_eq_take (rb : RingBuffer) (l : Nat) (hInv : rb.Inv) :
    ringSegment rb.buffer rb.size (rb.read_index % rb.size) (min l rb.buffered_bytes) =
      rb.contents.take l := by
  have hsz : 0 < rb.size := hInv.size_pos
  obtain ⟨hpow, hmaskeq, hble, hidx⟩ := hInv
  rw [ringSegment_eq rb.buffer rb.size rb.read_index (min l rb.buffered_bytes) hsz (by omega)]
  apply List.ext_getElem
  · simp [contents]
  · intro i h1 h2
    simp only [List.length_map, List.length_range] at h1
    rw [List.getElem_map, List.getElem_range, List.getElem_take]
    unfold contents
    rw [List.getElem_map, List.getElem_range]

theorem readCb_eq (rb : RingBuffer) (l : Nat) (cb : List Nat → Nat → Bool) (hInv : rb.Inv)
    (hl : l ≠ 0) (hb : rb.buffered_bytes ≠ 0) :
    rb.readCb l cb =
      (if cb (rb.contents.take l) (min l rb.buffered_bytes) then
        (min l rb.buffered_bytes,
         some (rb.contents.take l, min l rb.buffered_bytes),
         { rb with read_index := rb.read_index % rb.size + min l rb.buffered_bytes
                   buffered_bytes := rb.buffered_bytes - min l rb.buffered_bytes })
      else
        (0, some (rb.contents.take l, min l rb.buffered_bytes), rb)) := by
  have hmask := hInv.mask_eq rb.read_index
  rw [readCb, if_neg hl, if_neg hb]
  dsimp only
  simp only [capacity]
  rw [hmask, view_eq_take rb l hInv]

theorem readCb_reject (rb : RingBuffer) (l : Nat) (cb : List Nat → Nat → Bool) (hInv : rb.Inv)
    (hcb : cb (rb.contents.take l) (min l rb.buffered_bytes) = false) :
    (rb.readCb l cb).1 = 0 ∧ (rb.readCb l cb).2.2 = rb := by
  rcases Nat.eq_zero_or_pos l with hl | hl
  · subst hl
    rw [readCb, if_pos rfl]
    exact ⟨rfl, rfl⟩
  rcases Nat.eq_zero_or_pos rb.buffered_bytes with hb | hb
  · rw [readCb, if_neg (by omega), if_pos hb]
    exact ⟨rfl, rfl⟩
  · rw [readCb_eq rb l cb hInv (by omega) (by omega), if_neg (by simp [hcb])]
    exact ⟨rfl, rfl⟩

theorem readCb_commit (rb : RingBuffer) (l : Nat) (cb : List Nat → Nat → Bool) (hInv : rb.Inv)
    (hcb : cb (rb.contents.take l) (min l rb.buffered_bytes) = true) :
    (rb.readCb l cb).1 = min l rb.buffered_bytes ∧
    ((rb.readCb l cb).2.2).Inv ∧
    (rb.readCb l cb).2.2.contents = rb.contents.drop l ∧
    (rb.readCb l cb).2.2.buffered_bytes = rb.buffered_bytes - min l rb.buffered_bytes ∧
    (rb.readCb l cb).2.2.size = rb.size ∧
    (rb.readCb l cb).2.2.buffer = rb.buffer := by
  have hsz : 0 < rb.size := hInv.size_pos
  rcases Nat.eq_zero_or_pos l with hl | hl
  · subst hl
    rw [readCb, if_pos rfl]
    have hc0 : rb.contents.drop 0 = rb.contents := List.drop_zero _
    exact ⟨by simp, hInv, by simp [hc0], by simp, rfl, rfl⟩
  rcases Nat.eq_zero_or_pos rb.buffered_bytes with hb | hb
  · rw [readCb, if_neg (by omega), if_pos hb]
    have hc : rb.contents = [] := by
      unfold contents
      rw [hb]
      simp
    exact ⟨by simp [hb], hInv, by simp [hc], by simp [hb], rfl, rfl⟩
  · rw [readCb_eq rb l cb hInv (by omega) (by omega), if_pos (by simp [hcb])]
    obtain ⟨hpow, hmaskeq, hble, hidx⟩ := hInv
    refine ⟨rfl, ⟨hpow, hmaskeq, by dsimp only; omega, ?_⟩, ?_, rfl, rfl, rfl⟩
    · dsimp only
      rw [hidx]
      have h1 : rb.read_index % rb.size + min l rb.buffered_bytes +
          (rb.buffered_bytes - min l rb.buffered_bytes) =
          rb.read_index % rb.size + rb.buffered_bytes := by
        omega
      rw [h1, Nat.mod_add_mod]
    · unfold contents
      dsimp only
      apply List.ext_getElem
      · simp
        omega
      · intro i h1 h2
        simp only [List.length_map, List.length_range] at h1
        rw [List.getElem_map, List.getElem_range, List.getElem_drop,
            List.getElem_map, List.getElem_range]
        congr 1
        rw [Nat.add_assoc, Nat.mod_add_mod]
        congr 1
        omega

theorem drain_spec (rb : RingBuffer) (l : Nat) (hInv : rb.Inv) :
    ((rb.drain l)).Inv ∧
    (rb.drain l).contents = rb.contents.drop l ∧
    (rb.drain l).buffered_bytes = rb.buffered_bytes - min l rb.buffered_bytes ∧
    (rb.drain l).size = rb.size ∧
    (rb.drain l).buffer = rb.buffer := by
  have hsz : 0 < rb.size := hInv.size_pos
  have hmask := hInv.mask_eq rb.read_index
  have hmask2 := hInv.mask_eq (rb.read_index % rb.size + min l rb.buffered_bytes)
  obtain ⟨hpow, hmaskeq, hble, hidx⟩ := hInv
  rw [drain]
  dsimp only
  rw [hmask, hmask2]
  refine ⟨⟨hpow, hmaskeq, by dsimp only; omega, ?_⟩, ?_, rfl, rfl, rfl⟩
  · dsimp only
    rw [hidx, Nat.mod_add_mod]
    have h1 : rb.read_index % rb.size + min l rb.buffered_bytes +
        (rb.buffered_bytes - min l rb.buffered_bytes) =
        rb.read_index % rb.size + rb.buffered_bytes := by
      omega
    rw [h1, Nat.mod_add_mod]
  · unfold contents
    dsimp only
    apply List.ext_getElem
    · simp
      omega
    · intro i h1 h2
      simp only [List.length_map, List.length_range] at h1
      rw [List.getElem_map, List.getElem_range, List.getElem_drop,
          List.getElem_map, List.getElem_range]
      congr 1
      rw [Nat.mod_add_mod, Nat.add_assoc, Nat.mod_add_mod]
      congr 1
      omega

theorem write_none_eq (rb : RingBuffer) : rb.write none = (.invalidParameter, rb) := rfl

theorem write_zero_len (rb : RingBuffer) (d : List Nat) (h : d.length = 0) :
    rb.write (some d) = (.invalidParameter, rb) := by
  rw [write_some_eq, if_pos h]

theorem write_overflow (rb : RingBuffer) (d : List Nat) (hne : d.length ≠ 0)
    (h : (rb.buffered_bytes + d.length) % 2 ^ 32 > rb.capacity) :
    rb.write (some d) = (.bufferOverflow, rb) := by
  rw [write_some_eq, if_neg hne, if_pos h]

end RingBuffer

/-- C3, evaluated at a failing input: a capacity-2048 store holding one
byte has free space 2047.  A write of length `2 ^ 32 - 1` far exceeds
that free space, yet `buffered_bytes() + length` wraps to 0 in
`uint32_t`, the overflow check is bypassed and `write` does not return
`BufferOverflow` (the source then runs its `memcpy` out of bounds); an
oversize length that does not wrap, 2048, is duly rejected. -/
theorem claim_C3_overflow_check_bypass :
    2048 - 1 < (List.replicate 4294967295 (0 : Nat)).length ∧
    (rbOne9.write (some (List.replicate 4294967295 0))).1 = WriteResult.ok ∧
    (rbOne9.write (some (List.replicate 2048 0))).1 = WriteResult.bufferOverflow := by
  have hl1 : (List.replicate 4294967295 (0 : Nat)).length = 4294967295 :=
    List.length_replicate 4294967295 0
  have hl2 : (List.replicate 2048 (0 : Nat)).length = 2048 :=
    List.length_replicate 2048 0
  refine ⟨by rw [hl1]; omega, ?_, ?_⟩
  · rw [RingBuffer.write_some_eq, if_neg (by rw [hl1]; omega),
        if_neg (by rw [hl1]; decide)]
  · rw [RingBuffer.write_some_eq, if_neg (by rw [hl2]; omega),
        if_pos (by rw [hl2]; decide)]

/-- C4: a zero-copy read is committed (read index advanced,
`buffered_bytes` decreased by the actually-read amount, that amount
returned) only when the consumer returns true; when the consumer
returns false the call yields 0, the state is exactly unchanged, and a
subsequent copying read or zero-copy read of the same length sees the
identical bytes. -/
theorem claim_C4_readCb_commit_semantics (rb : RingBuffer) (l : Nat)
    (cb cb2 : List Nat → Nat → Bool) (hInv : rb.Inv) :
    (cb (rb.contents.take l) (min l rb.buffered_bytes) = false →
      (rb.readCb l cb).1 = 0 ∧
      (rb.readCb l cb).2.2 = rb ∧
      (rb.readCb l cb).2.2.buffered_bytes = rb.buffered_bytes ∧
      ((rb.readCb l cb).2.2.read true l).1 = (rb.read true l).1 ∧
      ((rb.readCb l cb).2.2.readCb l cb2).2.1 = (rb.readCb l cb2).2.1) ∧
    (cb (rb.contents.take l) (min l rb.buffered_bytes) = true →
      0 < l → 0 < rb.buffered_bytes →
      (rb.readCb l cb).1 = min l rb.buffered_bytes ∧
      (rb.readCb l cb).2.2.read_index =
        rb.read_index % rb.size + min l rb.buffered_bytes ∧
      (rb.readCb l cb).2.2.buffered_bytes =
        rb.buffered_bytes - min l rb.buffered_bytes) := by
  constructor
  · intro hcb
    obtain ⟨h1, h2⟩ := RingBuffer.readCb_reject rb l cb hInv hcb
    rw [h2]
    exact ⟨h1, rfl, rfl, rfl, rfl⟩
  · intro hcb hl hb
    rw [RingBuffer.readCb_eq rb l cb hInv (by omega) (by omega), if_pos (by simp [hcb])]
    exact ⟨rfl, rfl, rfl⟩

/-- C4 witness: a rejecting consumer on a store holding `[9, 8]` and a
committing consumer on the same store. -/
theorem claim_C4_witness :
    (((RingBuffer.new 4).write (some [9, 8])).2.readCb 2 (fun _ _ => false)).1 = 0 ∧
    (((RingBuffer.new 4).write (some [9, 8])).2.readCb 2 (fun _ _ => false)).2.2 =
      ((RingBuffer.new 4).write (some [9, 8])).2 ∧
    (((RingBuffer.new 4).write (some [9, 8])).2.readCb 2 (fun _ _ => true)).1 = 2 := by
  have hInv : (((RingBuffer.new 4).write (some [9, 8])).2).Inv :=
    ⟨⟨2, by decide, rfl⟩, rfl, by decide, by decide⟩
  have h1 := (claim_C4_readCb_commit_semantics ((RingBuffer.new 4).write (some [9, 8])).2 2
      (fun _ _ => false) (fun _ _ => false) hInv).1 (by decide)
  have h2 := (claim_C4_readCb_commit_semantics ((RingBuffer.new 4).write (some [9, 8])).2 2
      (fun _ _ => true) (fun _ _ => true) hInv).2 (by decide) (by decide) (by decide)
  exact ⟨h1.1, h1.2.1, by rw [h2.1]; decide⟩

theorem applyOp_spec (rb : RingBuffer) (op : BufOp) (hInv : rb.Inv)
    (hfit : ∀ d, op = BufOp.write d → d.length ≤ rb.capacity - rb.buffered_bytes) :
    ((applyOp rb op).1).Inv ∧ (applyOp rb op).1.size = rb.size ∧
    (applyOp rb op).1.buffered_bytes + (applyOp rb op).2.2 =
      rb.buffered_bytes + (applyOp rb op).2.1 := by
  obtain ⟨hpow, hmaskeq, hble, hidx⟩ := hInv
  rcases op with d | l | l
  · -- write: within the free space the write either succeeds, or is
    -- rejected as InvalidParameter for zero length (accepted length 0)
    have hfd : d.length ≤ rb.capacity - rb.buffered_bytes := hfit d rfl
    unfold applyOp
    dsimp only
    rcases Nat.eq_zero_or_pos d.length with h0 | h0
    · rw [RingBuffer.write_zero_len rb d h0]
      dsimp only
      refine ⟨⟨hpow, hmaskeq, hble, hidx⟩, rfl, by simp⟩
    · obtain ⟨hres, hInv', -, hb, hs, -⟩ :=
        RingBuffer.write_ok_spec rb d ⟨hpow, hmaskeq, hble, hidx⟩ (by omega)
          (by unfold RingBuffer.capacity at hfd ⊢; omega)
      rcases hw : rb.write (some d) with ⟨res, rb'⟩
      rw [hw] at hres hInv' hb hs
      dsimp only at hres hInv' hb hs ⊢
      rw [hres, if_pos rfl]
      exact ⟨hInv', hs, by omega⟩
  · -- read
    obtain ⟨-, hInv', -, hb, hs, -⟩ :=
      RingBuffer.read_true_spec rb l ⟨hpow, hmaskeq, hble, hidx⟩
    unfold applyOp
    dsimp only
    refine ⟨hInv', hs, ?_⟩
    rw [hb]
    omega
  · -- drain
    obtain ⟨hInv', -, hb, hs, -⟩ := RingBuffer.drain_spec rb l ⟨hpow, hmaskeq, hble, hidx⟩
    unfold applyOp
    dsimp only
    refine ⟨hInv', hs, ?_⟩
    rw [hb]
    omega

theorem runOps_cons (rb : RingBuffer) (op : BufOp) (ops : List BufOp) :
    runOps rb (op :: ops) =
      ((runOps (applyOp rb op).1 ops).1,
       (applyOp rb op).2.1 + (runOps (applyOp rb op).1 ops).2.1,
       (applyOp rb op).2.2 + (runOps (applyOp rb op).1 ops).2.2) := rfl

theorem fitsRun_cons (rb : RingBuffer) (op : BufOp) (ops : List BufOp) :
    fitsRun rb (op :: ops) =
      ((match op with
        | BufOp.write d => decide (d.length ≤ rb.capacity - rb.buffered_bytes)
        | _ => true) && fitsRun (applyOp rb op).1 ops) := rfl

theorem fitsRun_take (ops : List BufOp) (rb : RingBuffer) (n : Nat)
    (h : fitsRun rb ops = true) : fitsRun rb (ops.take n) = true := by
  induction ops generalizing rb n with
  | nil =>
    rw [List.take_nil]
    rfl
  | cons op ops ih =>
    cases n with
    | zero => rfl
    | succ n =>
      rw [List.take_succ_cons, fitsRun_cons, Bool.and_eq_true]
      rw [fitsRun_cons, Bool.and_eq_true] at h
      exact ⟨h.1, ih (applyOp rb op).1 n h.2⟩

theorem runOps_spec (ops : List BufOp) (rb : RingBuffer) (hInv : rb.Inv)
    (hfits : fitsRun rb ops = true) :
    ((runOps rb ops).1).Inv ∧ (runOps rb ops).1.size = rb.size ∧
    (runOps rb ops).1.buffered_bytes + (runOps rb ops).2.2 =
      rb.buffered_bytes + (runOps rb ops).2.1 := by
  induction ops generalizing rb with
  | nil => exact ⟨hInv, rfl, by simp [runOps]⟩
  | cons op ops ih =>
    rw [fitsRun_cons, Bool.and_eq_true] at hfits
    obtain ⟨h1, h2⟩ := hfits
    have hfit : ∀ d, op = BufOp.write d → d.length ≤ rb.capacity - rb.buffered_bytes := by
      intro d hd
      subst hd
      exact of_decide_eq_true h1
    obtain ⟨hInv', hs, hacc⟩ := applyOp_spec rb op hInv hfit
    obtain ⟨hInv'', hs', hacc'⟩ := ih (applyOp rb op).1 hInv' h2
    rw [runOps_cons]
    dsimp only
    exact ⟨hInv'', by rw [hs', hs], by omega⟩

/-- C6: over any operation sequence in which every write fits into the
free space available at its moment, the byte count after each prefix of
operations balances exactly: final count plus everything actually read
or drained equals the initial count plus every accepted write length —
and the count never exceeds the capacity (as a `Nat` it cannot drop
below 0, and the balance equation shows no truncation occurs). -/
theorem claim_C6_buffered_accounting (rb : RingBuffer) (ops : List BufOp)
    (hInv : rb.Inv) (hfits : fitsRun rb ops = true) (n : Nat) :
    (runOps rb (ops.take n)).1.buffered_bytes + (runOps rb (ops.take n)).2.2 =
      rb.buffered_bytes + (runOps rb (ops.take n)).2.1 ∧
    (runOps rb (ops.take n)).1.buffered_bytes ≤ rb.capacity := by
  obtain ⟨hInv', hs, hacc⟩ :=
    runOps_spec (ops.take n) rb hInv (fitsRun_take ops rb n hfits)
  refine ⟨hacc, ?_⟩
  have hb := hInv'.2.2.1
  rw [hs] at hb
  unfold RingBuffer.capacity
  exact hb

/-- C6 witness: a concrete fitting run on a capacity-16 store. -/
theorem claim_C6_witness :
    (runOps (RingBuffer.new 16)
        [BufOp.write [5, 5], BufOp.read 1, BufOp.drain 1, BufOp.write [7]]).1.buffered_bytes +
      (runOps (RingBuffer.new 16)
        [BufOp.write [5, 5], BufOp.read 1, BufOp.drain 1, BufOp.write [7]]).2.2 =
    (RingBuffer.new 16).buffered_bytes +
      (runOps (RingBuffer.new 16)
        [BufOp.write [5, 5], BufOp.read 1, BufOp.drain 1, BufOp.write [7]]).2.1 := by
  have h := claim_C6_buffered_accounting (RingBuffer.new 16)
      [BufOp.write [5, 5], BufOp.read 1, BufOp.drain 1, BufOp.write [7]]
      ⟨⟨4, by decide, by decide⟩, rfl, by decide, by decide⟩ (by decide) 4
  exact h.1

theorem writeAll_spec (dss : List (List Nat)) (rb : RingBuffer) (hInv : rb.Inv)
    (hne : ∀ d ∈ dss, d ≠ ([] : List Nat))
    (hfit : rb.buffered_bytes + (dss.map List.length).sum ≤ rb.capacity) :
    ((writeAll rb dss)).Inv ∧ (writeAll rb dss).size = rb.size ∧
    (writeAll rb dss).contents = rb.contents ++ dss.flatten ∧
    (writeAll rb dss).buffered_bytes = rb.buffered_bytes + (dss.map List.length).sum := by
  induction dss generalizing rb with
  | nil =>
    refine ⟨hInv, rfl, by simp [writeAll], by simp [writeAll]⟩
  | cons d dss ih =>
    have hd : d ≠ [] := hne d (by simp)
    have hlen : d.length ≠ 0 := by
      intro h
      exact hd (List.eq_nil_of_length_eq_zero h)
    simp only [List.map_cons, List.sum_cons] at hfit
    obtain ⟨-, hInv', hc, hb, hs, -⟩ :=
      RingBuffer.write_ok_spec rb d hInv hlen (by omega)
    have hrec := ih (rb.write (some d)).2 hInv'
        (fun x hx => hne x (by simp [hx]))
        (by rw [hb]; unfold RingBuffer.capacity at hfit ⊢; rw [hs]; omega)
    obtain ⟨hI, hS, hC, hB⟩ := hrec
    refine ⟨hI, by rw [writeAll, hS, hs], ?_, ?_⟩
    · rw [writeAll, hC, hc, List.flatten_cons, List.append_assoc]
    · rw [writeAll, hB, hb]
      simp only [List.map_cons, List.sum_cons]
      omega

theorem readAll_spec (ls : List Nat) (rb : RingBuffer) (hInv : rb.Inv) :
    (readAll rb ls).1 = rb.contents.take ls.sum ∧
    ((readAll rb ls).2).Inv ∧
    (readAll rb ls).2.contents = rb.contents.drop ls.sum := by
  induction ls generalizing rb with
  | nil =>
    refine ⟨by simp [readAll], hInv, by simp [readAll]⟩
  | cons l ls ih =>
    obtain ⟨hout, hInv', hc, -, -, -⟩ := RingBuffer.read_true_spec rb l hInv
    obtain ⟨hO, hI, hC⟩ := ih (rb.read true l).2 hInv'
    refine ⟨?_, hI, ?_⟩
    · rw [readAll]
      dsimp only
      rw [hO, hout, hc, List.sum_cons, List.take_add]
    · rw [readAll]
      dsimp only
      rw [hC, hc, List.drop_drop, List.sum_cons]

/-- C7: any byte sequence `S` no longer than the capacity, written from
a state with no buffered bytes through any split into successive writes
and read back through any split of `len S` into successive reads, comes
back exactly as `S` — wraparound positions of the read/write indices
included, since the starting state is arbitrary. -/
theorem claim_C7_round_trip (rb : RingBuffer) (dss : List (List Nat)) (ls : List Nat)
    (hInv : rb.Inv) (hempty : rb.buffered_bytes = 0)
    (hne : ∀ d ∈ dss, d ≠ ([] : List Nat))
    (hfit : (dss.map List.length).sum ≤ rb.capacity)
    (hsum : ls.sum = dss.flatten.length) :
    (readAll (writeAll rb dss) ls).1 = dss.flatten := by
  have hc0 : rb.contents = [] := by
    unfold RingBuffer.contents
    rw [hempty]
    simp
  obtain ⟨hI, -, hC, -⟩ := writeAll_spec dss rb hInv hne (by omega)
  obtain ⟨hO, -, -⟩ := readAll_spec ls (writeAll rb dss) hI
  rw [hO, hC, hc0, List.nil_append, hsum, List.take_of_length_le (le_refl _)]

/-- C7 witness: a store whose indices sit at 3 of 4, so both the write
and the read wrap around the physical end. -/
theorem claim_C7_witness :
    (readAll (writeAll ⟨3, 4, fun _ => 0, 3, 3, 0⟩ [[1, 2], [3]]) [2, 1]).1 = [1, 2, 3] := by
  have h := claim_C7_round_trip ⟨3, 4, fun _ => 0, 3, 3, 0⟩ [[1, 2], [3]] [2, 1]
      ⟨⟨2, by decide, by decide⟩, rfl, by decide, by decide⟩ (by decide) (by decide) (by decide) (by decide)
  simpa using h

theorem contents_new (n : Nat) : (RingBuffer.new n).contents = [] := by
  simp [RingBuffer.contents, RingBuffer.new]

theorem loopCond_header (hs : HeaderShape) (p : Parser) (hst : p.recv_state = .READ_HEADER) :
    loopCond hs p ↔ hs.protocol_header_length ≤ p.recv_buffer.buffered_bytes := by
  simp [loopCond, hst]

theorem loopCond_body (hs : HeaderShape) (p : Parser) (hst : p.recv_state = .READ_BODY) :
    loopCond hs p ↔ p.current_header.body_length ≤ p.recv_buffer.buffered_bytes := by
  simp [loopCond, hst]

theorem parseLoop_stop (hs : HeaderShape) (hh : HeaderRec → Bool) (bh : List Nat → Nat → Bool)
    (p : Parser) (hc : ¬ loopCond hs p) :
    parseLoop hs hh bh p = ([], p) := by
  rw [parseLoop]
  rw [dif_neg hc]

theorem parseLoop_go (hs : HeaderShape) (hh : HeaderRec → Bool) (bh : List Nat → Nat → Bool)
    (p : Parser) (hc : loopCond hs p)
    (hstep : (performStreamingParse hs hh bh p).1 = false) :
    parseLoop hs hh bh p =
      ((performStreamingParse hs hh bh p).2.1 ++
         (parseLoop hs hh bh (performStreamingParse hs hh bh p).2.2).1,
       (parseLoop hs hh bh (performStreamingParse hs hh bh p).2.2).2) := by
  rw [parseLoop]
  rw [dif_pos hc]
  simp only [hstep]
  rw [dif_neg (by simp [hstep])]

theorem step_header_eq (hs : HeaderShape) (hh : HeaderRec → Bool) (bh : List Nat → Nat → Bool)
    (p : Parser) (hst : p.recv_state = .READ_HEADER)
    (hge : hs.protocol_header_length ≤ p.recv_buffer.buffered_bytes) :
    performStreamingParse hs hh bh p =
      (false,
       [Event.header (decodeHeader hs (p.recv_buffer.read true hs.protocol_header_length).1)],
       { recv_state := .READ_BODY,
         current_header := decodeHeader hs (p.recv_buffer.read true hs.protocol_header_length).1,
         recv_buffer := (p.recv_buffer.read true hs.protocol_header_length).2 }) := by
  unfold performStreamingParse
  rw [hst]
  rw [if_pos hge]

theorem step_body_eq (hs : HeaderShape) (hh : HeaderRec → Bool) (bh : List Nat → Nat → Bool)
    (p : Parser) (hst : p.recv_state = .READ_BODY)
    (hge : p.current_header.body_length ≤ p.recv_buffer.buffered_bytes) :
    performStreamingParse hs hh bh p =
      (false,
       (match (p.recv_buffer.readCb p.current_header.body_length bh).2.1 with
        | some (v, n) => [Event.body v n]
        | none => []),
       { recv_state := .READ_HEADER,
         current_header := { p.current_header with body_length := 0 },
         recv_buffer := (p.recv_buffer.readCb p.current_header.body_length bh).2.2 }) := by
  unfold performStreamingParse
  rw [hst]
  rw [if_pos hge]

theorem handleData_eq (hs : HeaderShape) (hh : HeaderRec → Bool) (bh : List Nat → Nat → Bool)
    (p : Parser) (chunk : Option (List Nat)) :
    handleData hs hh bh p chunk =
      if (p.recv_buffer.write chunk).1 = .bufferOverflow then
        (false, [], { p with recv_buffer := (p.recv_buffer.write chunk).2 })
      else
        (true, (parseLoop hs hh bh { p with recv_buffer := (p.recv_buffer.write chunk).2 }).1,
         (parseLoop hs hh bh { p with recv_buffer := (p.recv_buffer.write chunk).2 }).2) := rfl

theorem readCb_zero (rb : RingBuffer) (cb : List Nat → Nat → Bool) :
    rb.readCb 0 cb = (0, none, rb) := by
  rw [RingBuffer.readCb]
  simp

theorem step_body_zero (hs : HeaderShape) (hh : HeaderRec → Bool) (bh : List Nat → Nat → Bool)
    (p : Parser) (hst : p.recv_state = .READ_BODY)
    (hbl : p.current_header.body_length = 0) :
    performStreamingParse hs hh bh p =
      (false, [],
       { recv_state := .READ_HEADER,
         current_header := { p.current_header with body_length := 0 },
         recv_buffer := p.recv_buffer }) := by
  rw [step_body_eq hs hh bh p hst (by omega)]
  rw [hbl, readCb_zero]

theorem loop_body_complete (hs : HeaderShape) (hh : HeaderRec → Bool)
    (bh : List Nat → Nat → Bool) (p : Parser) (body : List Nat)
    (hInv : p.recv_buffer.Inv)
    (hst : p.recv_state = .READ_BODY)
    (hct : p.recv_buffer.contents = body)
    (hbl : p.current_header.body_length = body.length)
    (hpos : 0 < body.length)
    (hbh : ∀ v n, bh v n = true) :
    (parseLoop hs hh bh p).1 = [Event.body body body.length] ∧
    (parseLoop hs hh bh p).2.recv_state = .READ_HEADER ∧
    (parseLoop hs hh bh p).2.current_header = { p.current_header with body_length := 0 } ∧
    ((parseLoop hs hh bh p).2.recv_buffer).Inv ∧
    (parseLoop hs hh bh p).2.recv_buffer.contents = [] ∧
    (parseLoop hs hh bh p).2.recv_buffer.size = p.recv_buffer.size := by
  have hbuf : p.recv_buffer.buffered_bytes = body.length := by
    rw [← RingBuffer.length_contents, hct]
  have hcb : bh (p.recv_buffer.contents.take p.current_header.body_length)
      (min p.current_header.body_length p.recv_buffer.buffered_bytes) = true := hbh _ _
  obtain ⟨hres, hInv', hc', hb', hs', -⟩ :=
    RingBuffer.readCb_commit p.recv_buffer p.current_header.body_length bh hInv hcb
  have hcalled : (p.recv_buffer.readCb p.current_header.body_length bh).2.1 =
      some (body, body.length) := by
    rw [RingBuffer.readCb_eq p.recv_buffer p.current_header.body_length bh hInv
        (by omega) (by omega)]
    rw [if_pos (by simp [hcb])]
    rw [hct, hbl, hbuf]
    rw [List.take_length, Nat.min_self]
  have hstep := step_body_eq hs hh bh p hst (by omega)
  have hloop := parseLoop_go hs hh bh p (by rw [loopCond_body hs p hst]; omega)
      (by rw [hstep])
  rw [hstep] at hloop
  dsimp only at hloop
  rw [hcalled] at hloop
  have hc2 : (p.recv_buffer.readCb p.current_header.body_length bh).2.2.contents = [] := by
    rw [hc', hct, hbl]
    exact List.drop_length body
  -- inner loop stops: READ_HEADER with empty buffer
  have hstop : parseLoop hs hh bh
      { recv_state := .READ_HEADER,
        current_header := { p.current_header with body_length := 0 },
        recv_buffer := (p.recv_buffer.readCb p.current_header.body_length bh).2.2 } =
      ([], { recv_state := .READ_HEADER,
             current_header := { p.current_header with body_length := 0 },
             recv_buffer := (p.recv_buffer.readCb p.current_header.body_length bh).2.2 }) := by
    apply parseLoop_stop
    rw [loopCond_header _ _ rfl]
    have hb0 : (p.recv_buffer.readCb p.current_header.body_length bh).2.2.buffered_bytes = 0 := by
      rw [hb', hbuf, hbl]
      omega
    rw [hb0]
    have := hs.hsize_pos
    omega
  rw [hloop, hstop]
  dsimp only
  rw [List.append_nil]
  exact ⟨rfl, rfl, rfl, hInv', hc2, hs'⟩

theorem midState_step (hs : HeaderShape) (hh : HeaderRec → Bool) (bh : List Nat → Nat → Bool)
    (hdr body c : List Nat) (t : Nat) (p : Parser)
    (hmid : MidState hs hdr body t p)
    (hhdr : hdr.length = hs.protocol_header_length)
    (hbl : (decodeHeader hs hdr).body_length = body.length)
    (hpos : 0 < body.length)
    (hcap : hdr.length + body.length ≤ 2048)
    (hbh : ∀ v n, bh v n = true)
    (hcne : c ≠ [])
    (hle : t + c.length ≤ hdr.length + body.length)
    (hck : c = ((hdr ++ body).drop t).take c.length) :
    (handleData hs hh bh p (some c)).1 = true ∧
    (handleData hs hh bh p (some c)).2.1 = eventsBetween hs hdr body t (t + c.length) ∧
    MidState hs hdr body (t + c.length) (handleData hs hh bh p (some c)).2.2 := by
  obtain ⟨hInv, hsz, hreg⟩ := hmid
  have hH0 : 0 < hs.protocol_header_length := hs.hsize_pos
  have hclen : c.length ≠ 0 := fun h => hcne (List.eq_nil_of_length_eq_zero h)
  have hcpos : 0 < c.length := by omega
  rcases hreg with ⟨htA, hstA, hctA⟩ | ⟨htB1, htB2, hstB, hchB, hctB⟩ | ⟨htC, -, -⟩
  · -- region A: still collecting the header
    have hbuf : p.recv_buffer.buffered_bytes = t := by
      rw [← RingBuffer.length_contents, hctA, List.length_take]
      simp only [List.length_append]
      omega
    obtain ⟨hok, hInv1, hc1, hb1, hs1, -⟩ :=
      RingBuffer.write_ok_spec p.recv_buffer c hInv hclen
        (by rw [hbuf]; unfold RingBuffer.capacity; rw [hsz]; omega)
    have hnotov : ¬ (p.recv_buffer.write (some c)).1 = WriteResult.bufferOverflow := by
      rw [hok]
      simp
    rw [handleData_eq, if_neg hnotov]
    dsimp only
    set p1 : Parser := { p with recv_buffer := (p.recv_buffer.write (some c)).2 } with hp1
    have hst1 : p1.recv_state = .READ_HEADER := hstA
    have hct1 : p1.recv_buffer.contents = (hdr ++ body).take (t + c.length) := by
      show (p.recv_buffer.write (some c)).2.contents = _
      rw [hc1, hctA, List.take_add, ← hck]
    have hb1' : p1.recv_buffer.buffered_bytes = t + c.length := by
      show (p.recv_buffer.write (some c)).2.buffered_bytes = _
      rw [hb1, hbuf]
    have hs1' : p1.recv_buffer.size = 2048 := by
      show (p.recv_buffer.write (some c)).2.size = _
      rw [hs1, hsz]
    have hInv1' : (p1.recv_buffer).Inv := hInv1
    rcases Nat.lt_or_ge (t + c.length) hdr.length with ht' | ht'
    · -- A1: header still incomplete, loop idles
      rw [parseLoop_stop hs hh bh p1 (by rw [loopCond_header hs p1 hst1, hb1']; omega)]
      refine ⟨rfl, ?_, ?_⟩
      · unfold eventsBetween
        rw [if_neg (by omega), if_neg (by omega)]
        rfl
      · exact ⟨hInv1', hs1', Or.inl ⟨ht', hst1, hct1⟩⟩
    · -- A2: the header completes in this delivery
      have hloopc : loopCond hs p1 := by
        rw [loopCond_header hs p1 hst1, hb1']
        omega
      have hstep := step_header_eq hs hh bh p1 hst1 (by rw [hb1']; omega)
      obtain ⟨hrd1, hInv2, hc2, hb2, hs2, -⟩ :=
        RingBuffer.read_true_spec p1.recv_buffer hs.protocol_header_length hInv1'
      have hbytes : (p1.recv_buffer.read true hs.protocol_header_length).1 = hdr := by
        rw [hrd1, hct1, List.take_take]
        have hmin : min hs.protocol_header_length (t + c.length) = hs.protocol_header_length := by
          omega
        rw [hmin, ← hhdr, List.take_left]
      have hloop := parseLoop_go hs hh bh p1 hloopc (by rw [hstep])
      rw [hstep] at hloop
      dsimp only at hloop
      rw [hbytes] at hloop
      set p2 : Parser :=
        { recv_state := .READ_BODY, current_header := decodeHeader hs hdr,
          recv_buffer := (p1.recv_buffer.read true hs.protocol_header_length).2 } with hp2
      have hct2 : p2.recv_buffer.contents = body.take (t + c.length - hdr.length) := by
        show (p1.recv_buffer.read true hs.protocol_header_length).2.contents = _
        rw [hc2, hct1, ← hhdr, List.drop_take, List.drop_left]
      have hb2' : p2.recv_buffer.buffered_bytes = t + c.length - hdr.length := by
        show (p1.recv_buffer.read true hs.protocol_header_length).2.buffered_bytes = _
        rw [hb2, hb1']
        omega
      have hs2' : p2.recv_buffer.size = 2048 := by
        show (p1.recv_buffer.read true hs.protocol_header_length).2.size = _
        rw [hs2, hs1']
      have hInv2' : (p2.recv_buffer).Inv := hInv2
      rcases Nat.lt_or_ge (t + c.length) (hdr.length + body.length) with htN | htN
      · -- A2a: body incomplete, loop stops in READ_BODY
        have hstop : parseLoop hs hh bh p2 = ([], p2) := by
          apply parseLoop_stop
          rw [loopCond_body hs p2 rfl]
          show ¬ ((decodeHeader hs hdr).body_length ≤ p2.recv_buffer.buffered_bytes)
          rw [hbl, hb2']
          omega
        rw [hloop, hstop]
        dsimp only
        refine ⟨rfl, ?_, ?_⟩
        · unfold eventsBetween
          rw [if_pos ⟨htA, by omega⟩, if_neg (by omega)]
        · exact ⟨hInv2', hs2',
            Or.inr (Or.inl ⟨by omega, htN, rfl, rfl, hct2⟩)⟩
      · -- A2b: the whole frame completes in this delivery
        have htN' : t + c.length = hdr.length + body.length := by omega
        have hct2b : p2.recv_buffer.contents = body := by
          rw [hct2, htN']
          have : hdr.length + body.length - hdr.length = body.length := by omega
          rw [this, List.take_length]
        obtain ⟨hl1, hl2, hl3, hl4, hl5, hl6⟩ :=
          loop_body_complete hs hh bh p2 body hInv2' rfl hct2b hbl hpos hbh
        rw [hloop]
        dsimp only
        refine ⟨rfl, ?_, ?_⟩
        · rw [hl1]
          unfold eventsBetween
          rw [if_pos ⟨htA, by omega⟩, if_pos ⟨by omega, by omega⟩]
        · refine ⟨hl4, by rw [hl6, hs2'], Or.inr (Or.inr ⟨htN'.symm ▸ rfl, hl2, hl5⟩)⟩
  · -- region B: collecting the body
    have hbuf : p.recv_buffer.buffered_bytes = t - hdr.length := by
      rw [← RingBuffer.length_contents, hctB, List.length_take]
      omega
    obtain ⟨hok, hInv1, hc1, hb1, hs1, -⟩ :=
      RingBuffer.write_ok_spec p.recv_buffer c hInv hclen
        (by rw [hbuf]; unfold RingBuffer.capacity; rw [hsz]; omega)
    have hnotov : ¬ (p.recv_buffer.write (some c)).1 = WriteResult.bufferOverflow := by
      rw [hok]
      simp
    rw [handleData_eq, if_neg hnotov]
    dsimp only
    set p1 : Parser := { p with recv_buffer := (p.recv_buffer.write (some c)).2 } with hp1
    have hst1 : p1.recv_state = .READ_BODY := hstB
    have hch1 : p1.current_header = decodeHeader hs hdr := hchB
    have hMdrop : (hdr ++ body).drop t = body.drop (t - hdr.length) := by
      rw [List.drop_append_eq_append_drop, List.drop_of_length_le (by omega), List.nil_append]
    have h2 : t + c.length - hdr.length = (t - hdr.length) + c.length := by omega
    have hct1 : p1.recv_buffer.contents = body.take (t + c.length - hdr.length) := by
      show (p.recv_buffer.write (some c)).2.contents = _
      rw [hc1, hctB]
      conv_lhs => rw [hck, hMdrop]
      rw [h2, List.take_add]
    have hb1' : p1.recv_buffer.buffered_bytes = t + c.length - hdr.length := by
      show (p.recv_buffer.write (some c)).2.buffered_bytes = _
      rw [hb1, hbuf]
      omega
    have hs1' : p1.recv_buffer.size = 2048 := by
      show (p.recv_buffer.write (some c)).2.size = _
      rw [hs1, hsz]
    have hInv1' : (p1.recv_buffer).Inv := hInv1
    rcases Nat.lt_or_ge (t + c.length) (hdr.length + body.length) with htN | htN
    · -- B1: body still incomplete
      have hstop : parseLoop hs hh bh p1 = ([], p1) := by
        apply parseLoop_stop
        rw [loopCond_body hs p1 hst1, hch1, hbl, hb1']
        omega
      rw [hstop]
      refine ⟨rfl, ?_, ?_⟩
      · unfold eventsBetween
        rw [if_neg (by omega), if_neg (by omega)]
        rfl
      · exact ⟨hInv1', hs1',
          Or.inr (Or.inl ⟨by omega, htN, hst1, hch1, hct1⟩)⟩
    · -- B2: the frame completes in this delivery
      have htN' : t + c.length = hdr.length + body.length := by omega
      have hct1b : p1.recv_buffer.contents = body := by
        rw [hct1, htN']
        have : hdr.length + body.length - hdr.length = body.length := by omega
        rw [this, List.take_length]
      obtain ⟨hl1, hl2, hl3, hl4, hl5, hl6⟩ :=
        loop_body_complete hs hh bh p1 body hInv1' hst1 hct1b
          (by rw [hch1]; exact hbl) hpos hbh
      refine ⟨rfl, ?_, ?_⟩
      · rw [hl1]
        unfold eventsBetween
        rw [if_neg (by omega), if_pos ⟨by omega, by omega⟩]
        rfl
      · refine ⟨hl4, by rw [hl6, hs1'], Or.inr (Or.inr ⟨htN'.symm ▸ rfl, hl2, hl5⟩)⟩
  · -- region C: the frame is already complete, no bytes may remain
    omega

theorem eventsBetween_trans (hs : HeaderShape) (hdr body : List Nat) (t t' t'' : Nat)
    (h1 : t ≤ t') (h2 : t' ≤ t'') :
    eventsBetween hs hdr body t t'' =
      eventsBetween hs hdr body t t' ++ eventsBetween hs hdr body t' t'' := by
  unfold eventsBetween
  split_ifs <;> simp_all <;> omega

theorem midState_le (hs : HeaderShape) (hdr body : List Nat) (t : Nat) (p : Parser)
    (h : MidState hs hdr body t p) : t ≤ hdr.length + body.length := by
  obtain ⟨-, -, hreg⟩ := h
  rcases hreg with ⟨h1, -, -⟩ | ⟨-, h1, -, -, -⟩ | ⟨h1, -, -⟩ <;> omega

theorem runChunks_cons (hs : HeaderShape) (hh : HeaderRec → Bool) (bh : List Nat → Nat → Bool)
    (p : Parser) (c : List Nat) (cs : List (List Nat)) :
    runChunks hs hh bh p (c :: cs) =
      ((handleData hs hh bh p (some c)).1 &&
         (runChunks hs hh bh (handleData hs hh bh p (some c)).2.2 cs).1,
       (handleData hs hh bh p (some c)).2.1 ++
         (runChunks hs hh bh (handleData hs hh bh p (some c)).2.2 cs).2.1,
       (runChunks hs hh bh (handleData hs hh bh p (some c)).2.2 cs).2.2) := rfl

theorem runChunks_mid (hs : HeaderShape) (hh : HeaderRec → Bool) (bh : List Nat → Nat → Bool)
    (hdr body : List Nat) (chunks : List (List Nat)) (t : Nat) (p : Parser)
    (hmid : MidState hs hdr body t p)
    (hhdr : hdr.length = hs.protocol_header_length)
    (hbl : (decodeHeader hs hdr).body_length = body.length)
    (hpos : 0 < body.length)
    (hcap : hdr.length + body.length ≤ 2048)
    (hbh : ∀ v n, bh v n = true)
    (hflat : chunks.flatten = (hdr ++ body).drop t)
    (hne : ∀ c ∈ chunks, c ≠ []) :
    (runChunks hs hh bh p chunks).1 = true ∧
    (runChunks hs hh bh p chunks).2.1 =
      eventsBetween hs hdr body t (hdr.length + body.length) := by
  induction chunks generalizing t p with
  | nil =>
    have hNle : hdr.length + body.length ≤ t := by
      have h1 := congrArg List.length hflat
      simp only [List.flatten_nil, List.length_nil, List.length_drop,
        List.length_append] at h1
      omega
    have htN : t = hdr.length + body.length :=
      Nat.le_antisymm (midState_le hs hdr body t p hmid) hNle
    refine ⟨rfl, ?_⟩
    unfold eventsBetween
    rw [if_neg (by omega), if_neg (by omega)]
    rfl
  | cons c cs ih =>
    have hcne : c ≠ [] := hne c (by simp)
    have hck : c = ((hdr ++ body).drop t).take c.length := by
      rw [← hflat, List.flatten_cons, List.take_left]
    have hflat' : cs.flatten = (hdr ++ body).drop (t + c.length) := by
      rw [← List.drop_drop, ← hflat, List.flatten_cons, List.drop_left]
    have hle : t + c.length ≤ hdr.length + body.length := by
      have h1 := congrArg List.length hflat
      simp only [List.flatten_cons, List.length_append, List.length_drop,
        List.length_flatten] at h1
      have h2 := midState_le hs hdr body t p hmid
      omega
    obtain ⟨hok, hev, hmid'⟩ :=
      midState_step hs hh bh hdr body c t p hmid hhdr hbl hpos hcap hbh hcne hle hck
    obtain ⟨hok', hev'⟩ :=
      ih (t + c.length) ((handleData hs hh bh p (some c)).2.2) hmid' hflat' (fun x hx => hne x (by simp [hx]))
    rw [runChunks_cons]
    refine ⟨by rw [hok, hok']; rfl, ?_⟩
    dsimp only
    rw [hev, hev', ← eventsBetween_trans hs hdr body t (t + c.length)
        (hdr.length + body.length) (by omega) hle]

theorem beDecode_pair (b0 b1 : Nat) : beDecode [b0, b1] = 256 * b0 + b1 := by
  simp [beDecode]
  ring

theorem beDecode_quad (b0 b1 b2 b3 : Nat) :
    beDecode [b0, b1, b2, b3] = 256 * (256 * (256 * b0 + b1) + b2) + b3 := by
  simp [beDecode]
  ring

/-- C2: a header+body message with always-accepting handlers, delivered
through `HandleData` in any chunking whatsoever, produces exactly one
header invocation carrying the byte-order-converted length field and
exactly one body invocation carrying exactly the body bytes — the same
trace for every split, as if the stream had arrived in one call. -/
theorem claim_C2_fragmentation_invariance (hs : HeaderShape) (hh : HeaderRec → Bool)
    (bh : List Nat → Nat → Bool) (hdr body : List Nat) (chunks : List (List Nat))
    (hhh : ∀ h, hh h = true) (hbh : ∀ v n, bh v n = true)
    (hhdr : hdr.length = hs.protocol_header_length)
    (hbl : beDecode ((hdr.drop hs.off).take hs.width) = body.length)
    (hpos : 0 < body.length)
    (hcap : hdr.length + body.length ≤ 2048)
    (hflat : chunks.flatten = hdr ++ body)
    (hne : ∀ c ∈ chunks, c ≠ []) :
    (runChunks hs hh bh Parser.init chunks).1 = true ∧
    (runChunks hs hh bh Parser.init chunks).2.1 =
      [Event.header (decodeHeader hs hdr), Event.body body body.length] ∧
    (decodeHeader hs hdr).body_length = beDecode ((hdr.drop hs.off).take hs.width) := by
  have hH0 : 0 < hs.protocol_header_length := hs.hsize_pos
  have hmid0 : MidState hs hdr body 0 Parser.init := by
    refine ⟨⟨⟨11, by decide, by decide⟩, rfl, by decide, rfl⟩, rfl, Or.inl ⟨by omega, rfl, ?_⟩⟩
    show (RingBuffer.new 2048).contents = _
    rw [contents_new, List.take_zero]
  obtain ⟨hok, hev⟩ :=
    runChunks_mid hs hh bh hdr body chunks 0 Parser.init hmid0 hhdr hbl hpos hcap hbh
      (by rw [hflat, List.drop_zero]) hne
  refine ⟨hok, ?_, rfl⟩
  rw [hev]
  unfold eventsBetween
  rw [if_pos ⟨by omega, by omega⟩, if_pos ⟨by omega, by omega⟩]
  rfl

/-- C2 witness: the 6-byte frame `[0,2,7,7] ++ [9,8]` delivered one
byte at a time. -/
theorem claim_C2_witness :
    (runChunks hsDemo hhTrue bhTrue Parser.init [[0], [2], [7], [7], [9], [8]]).1 = true ∧
    (runChunks hsDemo hhTrue bhTrue Parser.init [[0], [2], [7], [7], [9], [8]]).2.1 =
      [Event.header (decodeHeader hsDemo [0, 2, 7, 7]), Event.body [9, 8] 2] := by
  have h := claim_C2_fragmentation_invariance hsDemo hhTrue bhTrue [0, 2, 7, 7] [9, 8]
      [[0], [2], [7], [7], [9], [8]]
      (fun _ => rfl) (fun _ _ => rfl) (by decide) (by decide) (by decide) (by decide)
      (by decide) (by decide)
  exact ⟨h.1, h.2.1⟩

theorem write_snd_of_overflow (rb : RingBuffer) (data : Option (List Nat))
    (h : (rb.write data).1 = WriteResult.bufferOverflow) : (rb.write data).2 = rb := by
  match data with
  | none => rfl
  | some d =>
    rw [RingBuffer.write_some_eq] at h ⊢
    split_ifs at h ⊢ <;> simp_all

/-- C5: `HandleData` returns false exactly when the internal write
reported `BufferOverflow`; on that failure no handler runs and the
parser — including its buffered bytes — is left exactly as it was, and
in every other case the call returns true. -/
theorem claim_C5_handleData_failure (hs : HeaderShape) (hh : HeaderRec → Bool)
    (bh : List Nat → Nat → Bool) (p : Parser) (chunk : Option (List Nat)) :
    ((handleData hs hh bh p chunk).1 = false ↔
      (p.recv_buffer.write chunk).1 = WriteResult.bufferOverflow) ∧
    ((p.recv_buffer.write chunk).1 = WriteResult.bufferOverflow →
      (handleData hs hh bh p chunk).2.2 = p ∧ (handleData hs hh bh p chunk).2.1 = []) := by
  rw [handleData_eq]
  split
  · rename_i h
    refine ⟨by simpa using h, fun _ => ⟨?_, rfl⟩⟩
    have hrb := write_snd_of_overflow p.recv_buffer chunk h
    rw [hrb]
  · rename_i h
    exact ⟨by simpa using h, fun hov => absurd hov h⟩

/-- C5 witness: a delivery of 2049 bytes overflows the default store and
is rejected with the parser unchanged; a small delivery returns true. -/
theorem claim_C5_witness :
    (handleData hsDemo hhTrue bhTrue Parser.init (some (List.replicate 2049 0))).2.2 =
      Parser.init ∧
    ((handleData hsDemo hhTrue bhTrue Parser.init (some (List.replicate 2049 0))).1 = false ↔
      (Parser.init.recv_buffer.write (some (List.replicate 2049 0))).1 =
        WriteResult.bufferOverflow) := by
  have hlen2049 : (List.replicate 2049 (0 : Nat)).length = 2049 := List.length_replicate 2049 0
  have hov : (Parser.init.recv_buffer.write (some (List.replicate 2049 0))).1 =
      WriteResult.bufferOverflow := by
    rw [RingBuffer.write_overflow Parser.init.recv_buffer (List.replicate 2049 0)
      (by rw [hlen2049]; omega) (by rw [hlen2049]; decide)]
  exact ⟨((claim_C5_handleData_failure hsDemo hhTrue bhTrue Parser.init
        (some (List.replicate 2049 0))).2 hov).1,
   (claim_C5_handleData_failure hsDemo hhTrue bhTrue Parser.init
        (some (List.replicate 2049 0))).1⟩

/-- C8: in `READ_HEADER` with at least a header's worth of buffered
bytes, one transition reads exactly `protocol_header_length` bytes out
of the store, the byte-order conversion makes `body_length` the
big-endian (network-order) reading of the designated field — the
`ntohs`/`ntohl` semantics, spelled out for both widths — becomes the
recorded pending body length, the header handler is invoked once, and
the state moves to `READ_BODY` whatever `hh` returns (the result tuple
does not depend on `hh`'s value). -/
theorem claim_C8_header_transition (hs : HeaderShape) (hh : HeaderRec → Bool)
    (bh : List Nat → Nat → Bool) (p : Parser) (hInv : p.recv_buffer.Inv)
    (hst : p.recv_state = RecvState.READ_HEADER)
    (hge : hs.protocol_header_length ≤ p.recv_buffer.buffered_bytes) :
    performStreamingParse hs hh bh p =
      (false,
       [Event.header (decodeHeader hs (p.recv_buffer.contents.take hs.protocol_header_length))],
       { recv_state := .READ_BODY,
         current_header :=
           decodeHeader hs (p.recv_buffer.contents.take hs.protocol_header_length),
         recv_buffer := (p.recv_buffer.read true hs.protocol_header_length).2 }) ∧
    (p.recv_buffer.contents.take hs.protocol_header_length).length =
      hs.protocol_header_length ∧
    (p.recv_buffer.read true hs.protocol_header_length).2.contents =
      p.recv_buffer.contents.drop hs.protocol_header_length ∧
    (decodeHeader hs (p.recv_buffer.contents.take hs.protocol_header_length)).body_length =
      beDecode (((p.recv_buffer.contents.take hs.protocol_header_length).drop hs.off).take
        hs.width) ∧
    (∀ b0 b1 : Nat,
      ((p.recv_buffer.contents.take hs.protocol_header_length).drop hs.off).take hs.width =
          [b0, b1] →
      (decodeHeader hs (p.recv_buffer.contents.take hs.protocol_header_length)).body_length =
        256 * b0 + b1) ∧
    (∀ b0 b1 b2 b3 : Nat,
      ((p.recv_buffer.contents.take hs.protocol_header_length).drop hs.off).take hs.width =
          [b0, b1, b2, b3] →
      (decodeHeader hs (p.recv_buffer.contents.take hs.protocol_header_length)).body_length =
        256 * (256 * (256 * b0 + b1) + b2) + b3) := by
  obtain ⟨hrd, -, hc, -, -, -⟩ :=
    RingBuffer.read_true_spec p.recv_buffer hs.protocol_header_length hInv
  refine ⟨?_, ?_, hc, rfl, ?_, ?_⟩
  · rw [step_header_eq hs hh bh p hst hge, hrd]
  · rw [List.length_take, ← RingBuffer.length_contents] at *
    omega
  · intro b0 b1 hfield
    show beDecode _ = _
    rw [hfield, beDecode_pair]
  · intro b0 b1 b2 b3 hfield
    show beDecode _ = _
    rw [hfield, beDecode_quad]

/-- C8 witness: a header `[0,2,7,7]` (16-bit length field `[0,2]`, so
the converted value is 2) buffered with one extra byte. -/
theorem claim_C8_witness :
    (performStreamingParse hsDemo hhTrue bhTrue
      ⟨RecvState.READ_HEADER, ⟨[], 0⟩,
       ((RingBuffer.new 2048).write (some [0, 2, 7, 7, 9])).2⟩).2.2.recv_state =
      RecvState.READ_BODY ∧
    (decodeHeader hsDemo
      ((((RingBuffer.new 2048).write (some [0, 2, 7, 7, 9])).2.contents).take 4)).body_length =
      2 := by
  have hInv : (((RingBuffer.new 2048).write (some [0, 2, 7, 7, 9])).2).Inv :=
    ⟨⟨11, by decide, by decide⟩, rfl, by decide, by decide⟩
  have h := claim_C8_header_transition hsDemo hhTrue bhTrue
      ⟨RecvState.READ_HEADER, ⟨[], 0⟩, ((RingBuffer.new 2048).write (some [0, 2, 7, 7, 9])).2⟩
      hInv rfl (by decide)
  constructor
  · rw [h.1]
  · refine (h.2.2.2.2.1 0 2 ?_)
    decide

/-- C10, evaluated at a failing input: the parser's internally owned
store is the default `RingBuffer()` of 2048 bytes, and with one byte
already buffered a `HandleData` of length `2 ^ 32 - 1` exceeds 2048 by
far — yet the `uint32_t` overflow check inside the internal write wraps
to 0 and is bypassed, the write does not report `BufferOverflow` (the
source runs its `memcpy` out of bounds), and `HandleData` returns true
instead of the claimed false. -/
theorem claim_C10_wrap_bypass :
    Parser.init.recv_buffer.size = 2048 ∧
    2048 < rbOne9.buffered_bytes + (List.replicate 4294967295 (0 : Nat)).length ∧
    (handleData hsDemo hhTrue bhTrue ⟨RecvState.READ_HEADER, ⟨[], 0⟩, rbOne9⟩
      (some (List.replicate 4294967295 0))).1 = true := by
  have hl1 : (List.replicate 4294967295 (0 : Nat)).length = 4294967295 :=
    List.length_replicate 4294967295 0
  have hok : (rbOne9.write (some (List.replicate 4294967295 0))).1 = WriteResult.ok := by
    rw [RingBuffer.write_some_eq, if_neg (by rw [hl1]; omega),
        if_neg (by rw [hl1]; decide)]
  refine ⟨rfl, by rw [hl1]; decide, ?_⟩
  rw [handleData_eq, if_neg ?hno]
  case hno =>
    show ¬ (rbOne9.write (some (List.replicate 4294967295 0))).1 = WriteResult.bufferOverflow
    rw [hok]
    simp

theorem loop_body_reject (hs : HeaderShape) (hh : HeaderRec → Bool)
    (bh : List Nat → Nat → Bool) (p : Parser) (body : List Nat)
    (hInv : p.recv_buffer.Inv)
    (hst : p.recv_state = .READ_BODY)
    (hct : p.recv_buffer.contents = body)
    (hbl : p.current_header.body_length = body.length)
    (hpos : 0 < body.length)
    (hlt : body.length < hs.protocol_header_length)
    (hbh : bh body body.length = false) :
    parseLoop hs hh bh p =
      ([Event.body body body.length],
       { recv_state := .READ_HEADER,
         current_header := { p.current_header with body_length := 0 },
         recv_buffer := p.recv_buffer }) := by
  have hbuf : p.recv_buffer.buffered_bytes = body.length := by
    rw [← RingBuffer.length_contents, hct]
  have hcb : bh (p.recv_buffer.contents.take p.current_header.body_length)
      (min p.current_header.body_length p.recv_buffer.buffered_bytes) = false := by
    rw [hct, hbl, hbuf, List.take_length, Nat.min_self]
    exact hbh
  have hrcb : p.recv_buffer.readCb p.current_header.body_length bh =
      (0, some (body, body.length), p.recv_buffer) := by
    rw [RingBuffer.readCb_eq p.recv_buffer p.current_header.body_length bh hInv
        (by omega) (by omega)]
    rw [if_neg (by simp [hcb])]
    rw [hct, hbl, hbuf, List.take_length, Nat.min_self]
  have hstep := step_body_eq hs hh bh p hst (by omega)
  rw [hrcb] at hstep
  dsimp only at hstep
  have hloop := parseLoop_go hs hh bh p
      (by rw [loopCond_body hs p hst]; omega) (by rw [hstep])
  rw [hstep] at hloop
  dsimp only at hloop
  have hstop : parseLoop hs hh bh
      { recv_state := .READ_HEADER,
        current_header := { p.current_header with body_length := 0 },
        recv_buffer := p.recv_buffer } =
      ([], { recv_state := .READ_HEADER,
             current_header := { p.current_header with body_length := 0 },
             recv_buffer := p.recv_buffer }) := by
    apply parseLoop_stop
    rw [loopCond_header _ _ rfl, hbuf]
    omega
  rw [hloop, hstop]
  rw [List.append_nil]

/-- C1, evaluated at a failing input: a parser in `READ_BODY` with
pending body length 2 and the byte 9 already buffered receives the last
body byte 8; the handler is invoked with `[9, 8]` and rejects it.  The
store indeed keeps the bytes, but the parser neither stays in
`READ_BODY` nor keeps `pending_body_length = 2`: the source ignores the
result of `recv_buffer_.read(length, callback)` and resets to
`READ_HEADER` with `body_length = 0`, so the retained bytes will later
be parsed as a header. -/
theorem claim_C1_rejected_body_run :
    (handleData hsDemo hhTrue bhFalse
      ⟨RecvState.READ_BODY, ⟨[0, 2, 7, 7], 2⟩, rbOne9⟩ (some [8])).1 = true ∧
    (handleData hsDemo hhTrue bhFalse
      ⟨RecvState.READ_BODY, ⟨[0, 2, 7, 7], 2⟩, rbOne9⟩ (some [8])).2.1 =
      [Event.body [9, 8] 2] ∧
    (handleData hsDemo hhTrue bhFalse
      ⟨RecvState.READ_BODY, ⟨[0, 2, 7, 7], 2⟩, rbOne9⟩ (some [8])).2.2.recv_state =
      RecvState.READ_HEADER ∧
    (handleData hsDemo hhTrue bhFalse
      ⟨RecvState.READ_BODY, ⟨[0, 2, 7, 7], 2⟩, rbOne9⟩ (some [8])).2.2.current_header.body_length
      = 0 ∧
    (handleData hsDemo hhTrue bhFalse
      ⟨RecvState.READ_BODY, ⟨[0, 2, 7, 7], 2⟩, rbOne9⟩ (some [8])).2.2.recv_buffer.contents =
      [9, 8] := by
  have hInv : rbOne9.Inv := ⟨⟨11, by decide, by decide⟩, rfl, by decide, by decide⟩
  obtain ⟨hok, hInv1, hc1, hb1, hs1, -⟩ :=
    RingBuffer.write_ok_spec rbOne9 [8] hInv (by decide)
      (by unfold RingBuffer.capacity; decide)
  have hc1' : (rbOne9.write (some [8])).2.contents = [9, 8] := by
    rw [hc1]
    decide
  rw [handleData_eq, if_neg (by rw [hok]; simp)]
  dsimp only
  have hloop := loop_body_reject hsDemo hhTrue bhFalse
      ⟨RecvState.READ_BODY, ⟨[0, 2, 7, 7], 2⟩, (rbOne9.write (some [8])).2⟩ [9, 8]
      hInv1 rfl hc1' rfl (by decide) (by decide) rfl
  rw [hloop]
  exact ⟨rfl, rfl, rfl, rfl, hc1'⟩

theorem runChunks_nil (hs : HeaderShape) (hh : HeaderRec → Bool) (bh : List Nat → Nat → Bool)
    (p : Parser) : runChunks hs hh bh p [] = (true, [], p) := rfl

/-- C9 amended: a header whose length field decodes to 0 violates the
`READ_BODY` assertion (a build with assertions aborts there); with
assertions disabled — the modelled release semantics — the parser does
not stall: the loop guard `buffered ≥ 0` holds at once, the zero-length
`read(0, callback)` returns without ever invoking the body handler, and
the parser returns to `READ_HEADER` with the store untouched, ready to
parse whatever follows. -/
theorem claim_C9_zero_body_no_stall (hs : HeaderShape) (hh : HeaderRec → Bool)
    (bh : List Nat → Nat → Bool) (p : Parser)
    (hst : p.recv_state = RecvState.READ_BODY)
    (hbl : p.current_header.body_length = 0) :
    loopCond hs p ∧
    performStreamingParse hs hh bh p =
      (false, [],
       { recv_state := .READ_HEADER,
         current_header := { p.current_header with body_length := 0 },
         recv_buffer := p.recv_buffer }) := by
  refine ⟨?_, step_body_zero hs hh bh p hst hbl⟩
  rw [loopCond_body hs p hst, hbl]
  exact Nat.zero_le _

/-- C9 witness for the amended statement: a parser sitting in
`READ_BODY` with `body_length = 0`. -/
theorem claim_C9_witness :
    performStreamingParse hsDemo hhTrue bhTrue
      ⟨RecvState.READ_BODY, ⟨[0, 0, 5, 5], 0⟩, rbOne9⟩ =
      (false, [],
       ⟨RecvState.READ_HEADER, ⟨[0, 0, 5, 5], 0⟩, rbOne9⟩) :=
  (claim_C9_zero_body_no_stall hsDemo hhTrue bhTrue
    ⟨RecvState.READ_BODY, ⟨[0, 0, 5, 5], 0⟩, rbOne9⟩ rfl rfl).2

/-- C9 counterexample: one stream carrying a zero-length-body header
followed by a complete normal frame.  The parser does not stall after
the zero-length header: both header invocations and the body invocation
of the second frame all occur. -/
theorem claim_C9_counterexample :
    (runChunks hsDemo hhTrue bhTrue Parser.init [[0, 0, 5, 5, 0, 2, 7, 7, 9, 8]]).2.1 =
      [Event.header (decodeHeader hsDemo [0, 0, 5, 5]),
       Event.header (decodeHeader hsDemo [0, 2, 7, 7]),
       Event.body [9, 8] 2] ∧
    (decodeHeader hsDemo [0, 0, 5, 5]).body_length = 0 := by
  refine ⟨?_, rfl⟩
  have hInv0 : (Parser.init.recv_buffer).Inv := ⟨⟨11, by decide, by decide⟩, rfl, by decide, rfl⟩
  obtain ⟨hok, hInv1, hc1, hb1, hs1, -⟩ :=
    RingBuffer.write_ok_spec Parser.init.recv_buffer [0, 0, 5, 5, 0, 2, 7, 7, 9, 8] hInv0
      (by decide) (by unfold RingBuffer.capacity; decide)
  set w2 : RingBuffer :=
    (Parser.init.recv_buffer.write (some [0, 0, 5, 5, 0, 2, 7, 7, 9, 8])).2 with hw2
  have hc1' : w2.contents = [0, 0, 5, 5, 0, 2, 7, 7, 9, 8] := by
    rw [hc1]
    show (RingBuffer.new 2048).contents ++ _ = _
    rw [contents_new]
    rfl
  have hb1' : w2.buffered_bytes = 10 := by
    rw [hb1]
    decide
  rw [runChunks_cons, runChunks_nil]
  dsimp only
  rw [List.append_nil]
  rw [handleData_eq, if_neg (by rw [hok]; simp)]
  dsimp only
  -- iteration 1: read the zero-length header [0,0,5,5]
  set p1 : Parser := { Parser.init with recv_buffer := w2 } with hp1
  have hst1 : p1.recv_state = RecvState.READ_HEADER := rfl
  have hge1 : hsDemo.protocol_header_length ≤ p1.recv_buffer.buffered_bytes := by
    show hsDemo.protocol_header_length ≤ w2.buffered_bytes
    rw [hb1']
    decide
  obtain ⟨hrd1, hInv2, hc2, hb2, hs2, -⟩ :=
    RingBuffer.read_true_spec w2 hsDemo.protocol_header_length hInv1
  have hbytes1 : (w2.read true hsDemo.protocol_header_length).1 = [0, 0, 5, 5] := by
    rw [hrd1, hc1']
    rfl
  have hstep1 := step_header_eq hsDemo hhTrue bhTrue p1 hst1 hge1
  have hloop1 := parseLoop_go hsDemo hhTrue bhTrue p1
      (by rw [loopCond_header hsDemo p1 hst1]; exact hge1) (by rw [hstep1])
  rw [hstep1] at hloop1
  dsimp only at hloop1
  rw [hbytes1] at hloop1
  rw [hloop1]
  -- iteration 2: zero-length body completes silently
  set rb2 : RingBuffer := (w2.read true hsDemo.protocol_header_length).2 with hrb2
  set p2 : Parser :=
    { recv_state := RecvState.READ_BODY,
      current_header := decodeHeader hsDemo [0, 0, 5, 5],
      recv_buffer := rb2 } with hp2
  have hc2' : rb2.contents = [0, 2, 7, 7, 9, 8] := by
    rw [hrb2, hc2, hc1']
    rfl
  have hb2' : rb2.buffered_bytes = 6 := by
    rw [hrb2, hb2, hb1']
    decide
  have hstep2 := step_body_zero hsDemo hhTrue bhTrue p2 rfl (by decide)
  have hloop2 := parseLoop_go hsDemo hhTrue bhTrue p2
      (by rw [loopCond_body hsDemo p2 rfl]
          show (decodeHeader hsDemo [0, 0, 5, 5]).body_length ≤ rb2.buffered_bytes
          rw [show (decodeHeader hsDemo [0, 0, 5, 5]).body_length = 0 from rfl]
          exact Nat.zero_le _)
      (by rw [hstep2])
  rw [hstep2] at hloop2
  dsimp only at hloop2
  rw [hloop2]
  -- iteration 3: read the real header [0,2,7,7]
  set p3 : Parser :=
    { recv_state := RecvState.READ_HEADER,
      current_header := { decodeHeader hsDemo [0, 0, 5, 5] with body_length := 0 },
      recv_buffer := rb2 } with hp3
  have hge3 : hsDemo.protocol_header_length ≤ p3.recv_buffer.buffered_bytes := by
    show hsDemo.protocol_header_length ≤ rb2.buffered_bytes
    rw [hb2']
    decide
  obtain ⟨hrd3, hInv4, hc4, hb4, hs4, -⟩ :=
    RingBuffer.read_true_spec rb2 hsDemo.protocol_header_length hInv2
  have hbytes3 : (rb2.read true hsDemo.protocol_header_length).1 = [0, 2, 7, 7] := by
    rw [hrd3, hc2']
    rfl
  have hstep3 := step_header_eq hsDemo hhTrue bhTrue p3 rfl hge3
  have hloop3 := parseLoop_go hsDemo hhTrue bhTrue p3
      (by rw [loopCond_header hsDemo p3 rfl]; exact hge3) (by rw [hstep3])
  rw [hstep3] at hloop3
  dsimp only at hloop3
  rw [hbytes3] at hloop3
  rw [hloop3]
  -- iteration 4: the two body bytes complete the frame
  set rb4 : RingBuffer := (rb2.read true hsDemo.protocol_header_length).2 with hrb4
  set p4 : Parser :=
    { recv_state := RecvState.READ_BODY,
      current_header := decodeHeader hsDemo [0, 2, 7, 7],
      recv_buffer := rb4 } with hp4
  have hc4' : rb4.contents = [9, 8] := by
    rw [hrb4, hc4, hc2']
    rfl
  obtain ⟨hl1, -, -, -, -, -⟩ :=
    loop_body_complete hsDemo hhTrue bhTrue p4 [9, 8] hInv4 rfl hc4' (by decide) (by decide)
      (fun v n => rfl)
  rw [hl1]
  rfl
